import Mathlib

/-!
# system-info: predicate evaluation and result cache

A shallow embedding of `src/system-info.cpp`.  A `std::string` is a list of
characters (`Str`), one `Char` standing for one byte; a `std::map` is an
association list kept in strictly increasing key order, which is also the order
in which the source iterates it; `time_t` and `int` are `Int`.  The file system
the program reads is an explicit value (`Sources`, `World`); a call of
`logFatal` (which exits with status 1) and an exception nobody catches are the
two ways a function can end without returning, and are the `Abort` values of an
`Except`.
-/

namespace SystemInfo

/-- The type of `std::string` values. -/
abbrev Str := List Char

/-- The ways a call can end without returning to its caller. -/
inductive Abort where
  /-- A call of logFatal: message on stderr, then exit(EXIT_FAILURE). -/
  | fatal
  /-- An exception that is thrown and never caught (std::terminate). -/
  | uncaught
  deriving DecidableEq, Repr

deriving instance DecidableEq for Except

def EXIT_SUCCESS : Int := 0

def EXIT_FAILURE : Int := 1

def EXIT_NOTFOUND : Int := 2

def EXIT_FAIL : Int := 3

/-! ## Strings -/

/-- The function `::tolower` of the C locale on one character. -/
def tolower (c : Char) : Char :=
  if 65 ≤ c.toNat ∧ c.toNat ≤ 90 then Char.ofNat (c.toNat + 32) else c

/-- Source: toLower (lines 61-65), transform with ::tolower. -/
def toLower (s : Str) : Str := s.map tolower

/-- The function `isspace` of the C locale: space, \t, \n, \v, \f, \r.  It is
    what the regex class \s and the stream extraction operator skip. -/
def isspace (c : Char) : Bool :=
  c == ' ' || (9 ≤ c.toNat && c.toNat ≤ 13)

/-- The test `s.find(p) == 0` (also `s.rfind(p, 0) == 0`): p starts s. -/
def startsWith (p s : Str) : Bool := p.isPrefixOf s

/-- The comparison `operator<` of std::string: lexicographic on the bytes. -/
def strLt : Str → Str → Bool
  | _, [] => false
  | [], _ :: _ => true
  | a :: as, b :: bs => a.toNat < b.toNat || (a == b && strLt as bs)

/-- Removes every trailing character that satisfies p
    (the loop `while (!line.empty() && p(line.back())) line.pop_back()`). -/
def dropTrailing (p : Char → Bool) : Str → Str
  | [] => []
  | c :: t =>
    match dropTrailing p t with
    | [] => if p c then [] else [c]
    | r => c :: r

/-- The lines `getline` delivers on a file of the given content: the text up
    to each '\n', and the text after the last one unless it is empty. -/
def getlines : Str → Str → List Str
  | [], cur => if cur = [] then [] else [cur]
  | c :: t, cur => if c = '\n' then cur :: getlines t [] else getlines t (cur ++ [c])

/-! ## std::map -/

/-- A `std::map<string, V>`: the entries in increasing key order. -/
abbrev Map (V : Type) := List (Str × V)

/-- The member `find`: the value stored under k, if any. -/
def Map.find {V : Type} : Map V → Str → Option V
  | [], _ => none
  | (k, v) :: t, q => if k = q then some v else Map.find t q

/-- The assignment `m[k] = v`: the entry is replaced or inserted in key order. -/
def Map.assign {V : Type} : Map V → Str → V → Map V
  | [], k, v => [(k, v)]
  | (k1, v1) :: t, k, v =>
    if k = k1 then (k, v) :: t
    else if strLt k k1 then (k, v) :: (k1, v1) :: t
    else (k1, v1) :: Map.assign t k v

/-- The member `insert` of one pair: nothing changes when the key is there. -/
def Map.insertNew {V : Type} (m : Map V) (k : Str) (v : V) : Map V :=
  match m.find k with
  | some _ => m
  | none => m.assign k v

/-! ## The two sources -/

def ORDATA_PREFIX : Str := "ORDISSIMO_".toList

/-- One entry that readdir delivers for ORDATA_DIR. -/
structure DirEntry where
  /-- The field d_name. -/
  name : Str
  /-- What getMtime returns for the path of the entry (0 when stat fails). -/
  mtime : Int
  /-- The content of the file; none when it cannot be opened. -/
  content : Option Str
  deriving DecidableEq, Repr

/-- The part of the file system the attribute table is built from. -/
structure Sources where
  /-- The entries of ORDATA_DIR in readdir order; none when opendir fails. -/
  ordata : Option (List DirEntry)
  /-- What getMtime returns for ORDATA_DIR. -/
  ordataMtime : Int
  /-- The content of OS_RELEASE; none when it cannot be opened. -/
  osRelease : Option Str
  /-- What getMtime returns for OS_RELEASE. -/
  osReleaseMtime : Int
  deriving DecidableEq, Repr

/-- Source: parseFile (lines 73-86) on an opened file: the processor is run
    on every line that is not empty, in order. -/
def parseFile {S : Type} (content : Str) (processor : S → Str → S) (init : S) : S :=
  ((getlines content []).filter (fun line => !line.isEmpty)).foldl processor init

/-- The extraction `iss >> token`: white space is skipped, the token runs to
    the next white space; the extraction fails when nothing is left. -/
def readToken (s : Str) : Option (Str × Str) :=
  match s.dropWhile isspace with
  | [] => none
  | c :: t => some ((c :: t).takeWhile (fun x => !isspace x), (c :: t).dropWhile (fun x => !isspace x))

/-- The locals of processOrdata that the line processor updates. -/
structure OrdataState where
  ret : Map Str
  invalid_ordata : Bool
  found_ordata : Bool
  deriving DecidableEq, Repr

/-- Source: the lambda of processOrdata (lines 113-137). -/
def ordataLine (st : OrdataState) (line : Str) : OrdataState :=
  match readToken line with
  | none => st
  | some (token, rest) =>
    if token ≠ "export".toList then { st with invalid_ordata := true }
    else
      match readToken rest with
      | none => st
      | some (var, _) =>
        if !startsWith ORDATA_PREFIX var then { st with invalid_ordata := true }
        else
          match var.dropWhile (fun c => c != '=') with
          | [] => st
          | _ :: value =>
            let eq := (var.takeWhile (fun c => c != '=')).length
            let key := (var.drop ORDATA_PREFIX.length).take (eq - ORDATA_PREFIX.length)
            { st with ret := st.ret.assign (toLower key) value, found_ordata := true }

/-- Inserts an entry before the first one with a greater name. -/
def insertByName (e : DirEntry) : List DirEntry → List DirEntry
  | [] => [e]
  | f :: t => if strLt e.name f.name then e :: f :: t else f :: insertByName e t

/-- The call `sort(files.begin(), files.end())` on the names. -/
def sortByName (es : List DirEntry) : List DirEntry := es.foldr insertByName []

/-- The test `entry->d_name[0] == '.'`. -/
def hidden (e : DirEntry) : Bool :=
  match e.name with
  | c :: _ => c == '.'
  | [] => false

/-- Source: processOrdata (lines 89-151).  The result is the map and the flag
    invalid_ordata (the warning that is logged). -/
def processOrdata (src : Sources) : Except Abort (Map Str × Bool) :=
  match src.ordata with
  | none => .error .fatal
  | some entries =>
    let files := sortByName (entries.filter (fun e => !hidden e))
    let st := files.foldl
      (fun st file =>
        match file.content with
        | none => st
        | some content => parseFile content ordataLine st)
      ({ ret := [], invalid_ordata := false, found_ordata := false } : OrdataState)
    if !st.found_ordata then .error .fatal else .ok (st.ret, st.invalid_ordata)

/-- Source: the lambda of processOSRelease (lines 157-172), on the pair of
    ret and invalid_osrelease. -/
def osReleaseLine (st : Map Str × Bool) (line : Str) : Map Str × Bool :=
  match line.dropWhile (fun c => c != '=') with
  | [] => (st.1, true)
  | _ :: value =>
    let key := line.takeWhile (fun c => c != '=')
    let value :=
      if !value.isEmpty && value.head? == some '"' && value.getLast? == some '"'
      then (value.drop 1).take (value.length - 2) else value
    (st.1.assign ("os_".toList ++ toLower key) value, st.2)

/-- Source: processOSRelease (lines 153-181). -/
def processOSRelease (src : Sources) : Except Abort (Map Str × Bool) :=
  match src.osRelease with
  | none => .error .fatal
  | some content => .ok (parseFile content osReleaseLine ([], false))

/-- Source: getAllData (lines 184-196). -/
def getAllData (src : Sources) : Except Abort (Map Str) :=
  match processOrdata src with
  | .error e => .error e
  | .ok (data, _) =>
    match processOSRelease src with
    | .error e => .error e
    | .ok (os_data, _) =>
      let data := os_data.foldl (fun d kv => d.insertNew kv.1 kv.2) data
      let data := if data.find "custom".toList = none then data.assign "custom".toList "none".toList else data
      let data := if data.find "dev".toList = none then data.assign "dev".toList "false".toList else data
      .ok data

/-- Source: getMaxMtime (lines 320-347). -/
def getMaxMtime (src : Sources) : Int :=
  let ret : Int := 0
  let ret := if src.ordataMtime > ret then src.ordataMtime else ret
  let ret := if src.osReleaseMtime > ret then src.osReleaseMtime else ret
  match src.ordata with
  | none => ret
  | some entries =>
    (entries.filter (fun e => !hidden e)).foldl
      (fun ret e => if e.mtime > ret then e.mtime else ret) ret

/-! ## The cache file -/

/-- The number stoi reads from a run of digits, from the value read so far. -/
def digitsValue (acc : Nat) (l : Str) : Nat :=
  l.foldl (fun acc c => 10 * acc + (c.toNat - 48)) acc

/-- The conversion `std::stoi`: white space is skipped, then an optional sign
    and decimal digits are read and what follows them is ignored.  It throws
    (here: none) when there is no digit or the number is not an `int`. -/
def stoi (s : Str) : Option Int :=
  let s := s.dropWhile isspace
  let negative := s.head? == some '-'
  let s := if s.head? == some '-' || s.head? == some '+' then s.drop 1 else s
  let digits := s.takeWhile Char.isDigit
  if digits.isEmpty then none
  else
    let n : Nat := digitsValue 0 digits
    let v : Int := if negative then -(n : Int) else (n : Int)
    if v < -2147483648 ∨ 2147483647 < v then none else some v

/-- The output `outfile << value` of an `int`: decimal digits, with a minus
    sign in front of a negative number. -/
def showInt (v : Int) : Str :=
  if v < 0 then '-' :: Nat.toDigits 10 v.natAbs else Nat.toDigits 10 v.natAbs

/-- The part \s*=\s*\"([^\"]*)\" of entryPattern, matched at the first
    character of t: the capture and the text after the match.  Each piece can
    match in one way only. -/
def matchEntryValue (t : Str) : Option (Str × Str) :=
  match t.dropWhile isspace with
  | [] => none
  | e :: t =>
    if e ≠ '=' then none
    else
      match t.dropWhile isspace with
      | [] => none
      | q :: t =>
        if q ≠ '"' then none
        else
          match t.dropWhile (fun x => x != '"') with
          | [] => none
          | _ :: suffix => some (t.takeWhile (fun x => x != '"'), suffix)

/-- A match of entryPattern, the regex
    \[\s*([^\]]+)\s*\]\s*=\s*\"([^\"]*)\" of readCache (line 229), that begins
    at the first character of s: the two captures and the text after the match.
    The closing bracket of a match is the first one after the opening bracket,
    since the key and the white space around it hold none; so every way of
    splitting the text between the brackets continues from the same place and
    the match the backtracking matcher reports is the first split it tries
    that has a key: the leading white space as long as possible, the key all
    the rest up to the bracket; and when there is only white space between the
    brackets, all of it but the last character, which is the key. -/
def matchEntry (s : Str) : Option (Str × Str × Str) :=
  match s with
  | [] => none
  | c :: t =>
    if c ≠ '[' then none
    else
      let ws := t.takeWhile isspace
      let t := t.dropWhile isspace
      let run := t.takeWhile (fun x => x != ']')
      match t.dropWhile (fun x => x != ']') with
      | [] => none
      | _ :: t =>
        let key := if run.isEmpty then (ws.getLast?).toList else run
        if key.isEmpty then none
        else
          match matchEntryValue t with
          | none => none
          | some (value, suffix) => some (key, value, suffix)

/-- Source: the loop over regex_search in readCache (lines 233-241): the
    leftmost match from the current position is stored and the search goes on
    after it.  Every round leaves a shorter text, so the length of the text
    is fuel enough (searchEntries_fuel). -/
def searchEntries : Nat → Str → Map Int → Except Abort (Map Int)
  | 0, _, cache => .ok cache
  | _ + 1, [], cache => .ok cache
  | fuel + 1, c :: t, cache =>
    match matchEntry (c :: t) with
    | none => searchEntries fuel t cache
    | some (key, value, suffix) =>
      match stoi value with
      | none => .error .uncaught
      | some v => searchEntries fuel suffix (cache.assign key v)

/-- Source: the body of the line loop of readCache (lines 218-241). -/
def cacheLine (cache : Map Int) (line : Str) : Except Abort (Map Int) :=
  let pre := "declare -A cache=".toList
  let line := if startsWith pre line then line.drop pre.length else line
  let line := line.dropWhile (fun c => c == '(')
  let line := dropTrailing (fun c => c == ')') line
  searchEntries line.length line cache

/-- Runs cacheLine over the lines, stopping at the first exception. -/
def cacheLines : List Str → Map Int → Except Abort (Map Int)
  | [], cache => .ok cache
  | line :: rest, cache =>
    match cacheLine cache line with
    | .error e => .error e
    | .ok cache => cacheLines rest cache

/-- Source: readCache (lines 207-245) on the content of a file that opens. -/
def readCache (content : Str) : Except Abort (Map Int) :=
  cacheLines ((getlines content []).filter (fun line => !line.isEmpty)) []

/-- The text writeCache sends for one entry of the map (line 256). -/
def entryText (kv : Str × Int) : Str :=
  ['['] ++ kv.1 ++ [']', '=', '"'] ++ showInt kv.2 ++ ['"', ' ']

/-- The text writeCache sends to the file (lines 254-258). -/
def cacheText (cache : Map Int) : Str :=
  "declare -A cache=(".toList ++ (cache.map entryText).flatten ++ [')']

/-- What runTests sees of the machine and changes in it. -/
structure World where
  /-- The two sources. -/
  src : Sources
  /-- The cache file at the chosen path: st_mtime and content, none when stat fails. -/
  cache : Option (Int × Str)
  /-- The time a file written now is stamped with. -/
  now : Int
  /-- Whether the cache file can be opened for writing. -/
  writable : Bool
  deriving DecidableEq, Repr

/-- Source: writeCache (lines 248-262). -/
def writeCache (w : World) (cache : Map Int) : World :=
  if !w.writable then w
  else { w with cache := some (w.now, cacheText cache) }

/-! ## Command-line arguments -/

/-- The class [a-z_] of the two regexes of parseArgs. -/
def isKeyChar (c : Char) : Bool :=
  (97 ≤ c.toNat && c.toNat ≤ 122) || c == '_'

/-- The test `regex_match(lower, key_regex)` for ^[a-z_]+$ (line 293). -/
def matchKeyRegex (s : Str) : Bool :=
  !s.isEmpty && s.all isKeyChar

/-- The last part (?:\"[^\"]+\"|[^\"]+)$ of test_regex in parseArgs: text
    without a double quote, or such text between two double quotes; not empty
    either way. -/
def matchArgValue (val : Str) : Bool :=
  match val with
  | [] => false
  | c :: r =>
    if c = '"' then
      2 ≤ r.length && r.getLast? == some '"' && r.dropLast.all (fun x => x != '"')
    else (c :: r).all (fun x => x != '"')

/-- The test `regex_match(lower, test_regex)` for
    ^(is|isnot)-[a-z_]+-(?:\"[^\"]+\"|[^\"]+)$ (line 294), for one of the two
    alternatives of the first group.  The key stops at the first character
    outside [a-z_], which has to be the hyphen. -/
def matchArgWith (cond : Str) (s : Str) : Bool :=
  startsWith (cond ++ ['-']) s &&
    (let rest := s.drop (cond.length + 1)
     !(rest.takeWhile isKeyChar).isEmpty &&
       (match rest.dropWhile isKeyChar with
        | [] => false
        | d :: val => d == '-' && matchArgValue val))

/-- The test `regex_match(lower, test_regex)` of parseArgs (line 302). -/
def matchTestRegex (s : Str) : Bool :=
  matchArgWith "is".toList s || matchArgWith "isnot".toList s

/-- Source: parseArgs (lines 292-318); keys and tests are the two vectors it
    fills. -/
def parseArgs : List Str → List Str → List Str → Except Abort (List Str × List Str)
  | [], keys, tests => .ok (keys, tests)
  | arg :: args, keys, tests =>
    let lower := toLower arg
    if startsWith "is-".toList lower || startsWith "isnot-".toList lower then
      if !keys.isEmpty then .error .fatal
      else if !matchTestRegex lower then .error .fatal
      else parseArgs args keys (if lower ∈ tests then tests else tests ++ [lower])
    else
      if !tests.isEmpty then .error .fatal
      else if !matchKeyRegex lower then .error .fatal
      else parseArgs args (if lower ∈ keys then keys else keys ++ [lower]) tests

/-! ## Predicate evaluation -/

/-- The match of ^(is|isnot)-([^-]+)-(.+)$ (line 452) against the whole of t
    for one alternative of the first group: the captures cond, key, val.  The
    key is the text up to the next hyphen, the value all that follows it; the
    dot matches every character but \n and \r. -/
def matchTestWith (cond : Str) (t : Str) : Option (Str × Str × Str) :=
  if !startsWith (cond ++ ['-']) t then none
  else
    let rest := t.drop (cond.length + 1)
    let key := rest.takeWhile (fun c => c != '-')
    match rest.dropWhile (fun c => c != '-') with
    | [] => none
    | _ :: val =>
      if key.isEmpty || val.isEmpty || !val.all (fun c => c != '\n' && c != '\r') then none
      else some (cond, key, val)

/-- The call `regex_match(t, match, test_regex)` of runTests (line 454): the
    alternative `is` is tried before `isnot`. -/
def matchTest (t : Str) : Option (Str × Str × Str) :=
  match matchTestWith "is".toList t with
  | some m => some m
  | none => matchTestWith "isnot".toList t

/-- How the loop over the tests ends when it does not end the process. -/
inductive LoopEnd where
  /-- The statement `return EXIT_NOTFOUND` of line 465. -/
  | notFound
  /-- The end of the loop or its `break`, with the value of `fail`. -/
  | done (fail : Bool)
  deriving DecidableEq, Repr

/-- Source: the loop of runTests over the tests (lines 451-486), from the
    current value of `fail`. -/
def testLoop (data : Map Str) (_and : Bool) : List Str → Bool → Except Abort LoopEnd
  | [], fail => .ok (.done fail)
  | t :: ts, fail =>
    match matchTest t with
    | none => .error .fatal
    | some (cond, key, val) =>
      match data.find key with
      | none => .ok .notFound
      | some v =>
        let info_val := toLower v
        let matches_ :=
          if startsWith "is".toList cond then
            (if cond = "isnot".toList then !decide (info_val = val) else decide (info_val = val))
          else false
        if _and && !matches_ then .ok (.done true)
        else testLoop data _and ts (if matches_ then false else fail)

/-- Source: the construction of cachedKey in runTests (lines 419-423). -/
def cachedKey (tests : List Str) (_and _or : Bool) : Str :=
  let key := (if _and then ['1'] else ['0']) ++ (if _or then ['1'] else ['0'])
    ++ (tests.map (fun t => t ++ [' '])).flatten
  if !key.isEmpty && key.getLast? == some ' ' then key.dropLast else key

/-- Source: printTest (lines 349-356): the text sent to stdout. -/
def printTest (value : Bool) : Str :=
  (if value then "yes".toList else "no".toList) ++ ['\n']

/-- What a call of runTests leaves behind. -/
structure Run where
  /-- The value returned, or how the process ended instead. -/
  code : Except Abort Int
  /-- The text sent to stdout. -/
  out : Str
  /-- The machine afterwards. -/
  world : World
  deriving DecidableEq

/-- Source: runTests from line 449 on: the evaluation after a cache miss,
    with the map read from the cache file (empty when there is no file). -/
def evaluate (w : World) (cacheMap : Map Int) (cachedKey : Str) (tests : List Str)
    (_and quiet : Bool) : Run :=
  match getAllData w.src with
  | .error e => { code := .error e, out := [], world := w }
  | .ok data =>
    match testLoop data _and tests true with
    | .error e => { code := .error e, out := [], world := w }
    | .ok .notFound => { code := .ok EXIT_NOTFOUND, out := [], world := w }
    | .ok (.done fail) =>
      let code : Int := 0
      let code := if code = EXIT_SUCCESS ∧ fail then EXIT_FAIL else code
      let out := if !quiet then printTest (code == EXIT_SUCCESS) else []
      if code = EXIT_SUCCESS ∨ code = EXIT_FAIL then
        { code := .ok code, out := out, world := writeCache w (cacheMap.assign cachedKey code) }
      else { code := .ok code, out := out, world := w }

/-- Source: runTests (lines 402-502). -/
def runTests (w : World) (tests : List Str) (_and _or quiet : Bool) : Run :=
  let maxMtime := getMaxMtime w.src
  let cachedKey := cachedKey tests _and _or
  match w.cache with
  | none => evaluate w [] cachedKey tests _and quiet
  | some (mtime, content) =>
    if mtime < maxMtime then
      evaluate { w with cache := none } [] cachedKey tests _and quiet
    else
      match readCache content with
      | .error e => { code := .error e, out := [], world := w }
      | .ok cacheMap =>
        match cacheMap.find cachedKey with
        | some v =>
          { code := .ok v, out := if !quiet then printTest (v == 0) else [], world := w }
        | none => evaluate w cacheMap cachedKey tests _and quiet

/-- Source: main from line 574 on, for the flags --and, --or and -q and the
    positional arguments (no other option given): the two combinator flags
    together are fatal; then parseArgs, and runTests on the tests it collected.
    The result is none when main ends without a call of runTests: it shows the
    help (no positional argument) or calls outputValues (keys collected). -/
def runArgs (w : World) (args : List Str) (_and _or quiet : Bool) : Option Run :=
  if _and && _or then some { code := .error .fatal, out := [], world := w }
  else if args.isEmpty then none
  else
    match parseArgs args [] [] with
    | .error e => some { code := .error e, out := [], world := w }
    | .ok (keys, tests) =>
      if !keys.isEmpty then none else some (runTests w tests _and _or quiet)

/-! ## Vocabulary of the specification -/

/-- A predicate of the specification: polarity, attribute name, expected value. -/
structure Pred where
  isnot : Bool
  key : Str
  val : Str
  deriving DecidableEq, Repr

/-- The predicate string (is|isnot)-key-value. -/
def Pred.text (p : Pred) : Str :=
  (if p.isnot then "isnot".toList else "is".toList) ++ '-' :: (p.key ++ '-' :: p.val)

/-- A well-formed predicate: a key without hyphen, a value on one line, none
    of them empty, and the value in lower case, as parseArgs hands it over. -/
def Pred.WellFormed (p : Pred) : Prop :=
  p.key ≠ [] ∧ '-' ∉ p.key ∧ p.val ≠ [] ∧ '\n' ∉ p.val ∧ '\r' ∉ p.val ∧ toLower p.val = p.val

/-- The predicate holds in the table: the key is there and
    lowercase(table[key]) == lowercase(value), negated for isnot. -/
def Pred.holds (data : Map Str) (p : Pred) : Bool :=
  match data.find p.key with
  | none => false
  | some v => if p.isnot then !decide (toLower v = toLower p.val) else decide (toLower v = toLower p.val)

/-- The key of the predicate is in the table. -/
def Pred.present (data : Map Str) (p : Pred) : Bool := (data.find p.key).isSome

/-- Whether runTests finds no usable entry for the key: there is no cache
    file, or it is older than the sources, or the map read from it has no
    such key. -/
def cacheMiss (w : World) (key : Str) : Bool :=
  match w.cache with
  | none => true
  | some (mtime, content) =>
    decide (mtime < getMaxMtime w.src) ||
      (match readCache content with
       | .ok cacheMap => (cacheMap.find key).isNone
       | .error _ => false)

/-- The entry under the key in the map readCache gives for the cache file of
    the machine (no entry when there is no file). -/
def cacheEntry (w : World) (key : Str) : Except Abort (Option Int) :=
  match w.cache with
  | none => .ok none
  | some (_, content) =>
    match readCache content with
    | .ok cacheMap => .ok (cacheMap.find key)
    | .error e => .error e

/-- The outcome of the evaluation loop on the table built from the sources,
    with no cache involved (lines 449-489). -/
def evalDirect (src : Sources) (tests : List Str) (_and : Bool) : Except Abort Int :=
  match getAllData src with
  | .error e => .error e
  | .ok data =>
    match testLoop data _and tests true with
    | .error e => .error e
    | .ok .notFound => .ok EXIT_NOTFOUND
    | .ok (.done fail) => .ok (if fail then EXIT_FAIL else EXIT_SUCCESS)

instance (p : Pred) : Decidable p.WellFormed := by
  unfold Pred.WellFormed
  infer_instance

/-! ## Example machines -/

/-- The sources of the examples: one file in the directory source, and the
    flat file. -/
def demoSources : Sources :=
  { ordata := some [{ name := "base".toList, mtime := 10,
                      content := some "export ORDISSIMO_MODEL=Tablet\n".toList }],
    ordataMtime := 10,
    osRelease := some "ID=debian\n".toList,
    osReleaseMtime := 10 }

/-- The attribute table getAllData builds from demoSources. -/
def demoTable : Map Str :=
  [("custom".toList, "none".toList), ("dev".toList, "false".toList),
   ("model".toList, "Tablet".toList), ("os_id".toList, "debian".toList)]

/-- A machine with demoSources and no cache file. -/
def demoWorld : World :=
  { src := demoSources, cache := none, now := 20, writable := true }

/-- A machine whose directory source sets the attribute dev to the empty text. -/
def emptyDevWorld : World :=
  { src := { ordata := some [{ name := "base".toList, mtime := 10,
                               content := some "export ORDISSIMO_DEV=\n".toList }],
             ordataMtime := 10,
             osRelease := some "ID=debian\n".toList,
             osReleaseMtime := 10 },
    cache := none, now := 20, writable := true }

/-- The argument is-dev-"a] [g]=": a quoted value that holds brackets. -/
def bracketArg : Str :=
  "is-dev-".toList ++ ['"'] ++ "a] [g]=".toList ++ ['"']

/-- A key that the entry regex of readCache reads back as it is: not empty,
    no white space in front, no closing bracket and no line feed. -/
def SafeKey (k : Str) : Prop :=
  (k.head?.map isspace) = some false ∧ ']' ∉ k ∧ '\n' ∉ k

instance (k : Str) : Decidable (SafeKey k) := by
  unfold SafeKey
  infer_instance

/-! ## Definitions for the claims on the sources and the cache key -/

/-- Source: getAllData after the two readers returned (lines 187-195): the
    range insert of os_data into data, then the two default values. -/
def mergeData (data os_data : Map Str) : Map Str :=
  let data := os_data.foldl (fun d kv => d.insertNew kv.1 kv.2) data
  let data := if data.find "custom".toList = none then data.assign "custom".toList "none".toList else data
  let data := if data.find "dev".toList = none then data.assign "dev".toList "false".toList else data
  data

/-- A machine whose directory source defines the attribute os_id, which the
    flat file defines too. -/
def collisionSources : Sources :=
  { ordata := some [{ name := "base".toList, mtime := 10,
                      content := some "export ORDISSIMO_OS_ID=zz\n".toList }],
    ordataMtime := 10,
    osRelease := some "ID=debian\n".toList,
    osReleaseMtime := 10 }

/-- The text of a line before its first '='. -/
def beforeEq (line : Str) : Str := line.takeWhile (fun c => c != '=')

/-- The text of a line after its first '=' (empty when there is none). -/
def afterEq (line : Str) : Str := (line.dropWhile (fun c => c != '=')).drop 1

/-- The value as the specification describes it: the first and the last
    character are removed if and only if both of them are double quotes. -/
def stripQuotes (v : Str) : Str :=
  if v.head? = some '"' ∧ v.getLast? = some '"' then (v.drop 1).dropLast else v

/-- The entry the lambda of processOrdata stores for a line (lines 114-135):
    the lower-case key and the value, none when the line stores nothing. -/
def ordataEntry (line : Str) : Option (Str × Str) :=
  match readToken line with
  | none => none
  | some (token, rest) =>
    if token ≠ "export".toList then none
    else
      match readToken rest with
      | none => none
      | some (var, _) =>
        if !startsWith ORDATA_PREFIX var then none
        else
          match var.dropWhile (fun c => c != '=') with
          | [] => none
          | _ :: value =>
            let eq := (var.takeWhile (fun c => c != '=')).length
            let key := (var.drop ORDATA_PREFIX.length).take (eq - ORDATA_PREFIX.length)
            some (toLower key, value)

/-- The lines of a directory file that reach the lambda of processOrdata. -/
def fileLines (file : DirEntry) : List Str :=
  match file.content with
  | none => []
  | some content => (getlines content []).filter (fun line => !line.isEmpty)

/-- Two files of a directory source; the second one in sorted order defines
    model again. -/
def twoFileSources : Sources :=
  { ordata := some [{ name := "20-site".toList, mtime := 10,
                      content := some "export ORDISSIMO_MODEL=Phone\n".toList },
                    { name := "10-base".toList, mtime := 10,
                      content := some "export ORDISSIMO_MODEL=Tablet\nexport ORDISSIMO_Lang=fr_FR\n".toList }],
    ordataMtime := 10,
    osRelease := some "ID=debian\n".toList,
    osReleaseMtime := 10 }

/-- A directory source whose only line has a value with a blank in it. -/
def blankValueSources : Sources :=
  { ordata := some [{ name := "base".toList, mtime := 10,
                      content := some "export ORDISSIMO_NAME=My Tablet\n".toList }],
    ordataMtime := 10,
    osRelease := some "ID=debian\n".toList,
    osReleaseMtime := 10 }

/-- The machine of demoWorld with a cache file newer than the sources that
    records PASS for the query is-dev-false. -/
def freshWorld : World :=
  { demoWorld with cache := some (15, cacheText [("00is-dev-false".toList, 0)]) }

/-- Every value of the map is one of the two outcome codes a cache entry can
    have: 0 (pass) or 3 (fail). -/
def codesOk (m : Map Int) : Prop := ∀ e ∈ m, e.2 = 0 ∨ e.2 = 3

instance (m : Map Int) : Decidable (codesOk m) := by
  unfold codesOk
  infer_instance

/-- A directory source with two lines that lack the shape
    export ORDISSIMO_KEY=VALUE, followed by a line that has it. -/
def shapelessSources : Sources :=
  { ordata := some [{ name := "base".toList, mtime := 10,
                      content := some "export ORDISSIMO_FOO\nexport\nexport ORDISSIMO_MODEL=Tablet\n".toList }],
    ordataMtime := 10,
    osRelease := some "ID=debian\n".toList,
    osReleaseMtime := 10 }

/-- The modification times the freshness timestamp is taken over: the one of
    the directory, the one of the flat file, and the one of every entry of the
    directory whose name does not start with a dot (no entry when the
    directory cannot be opened).  A missing path counts with 0. -/
def sourceMtimes (src : Sources) : List Int :=
  src.ordataMtime :: src.osReleaseMtime ::
    (match src.ordata with
     | none => []
     | some entries => (entries.filter (fun e => !hidden e)).map DirEntry.mtime)

/-- The freshness timestamp as the specification describes it: the maximum
    of the source modification times, and 0 when they are all older than the
    epoch. -/
def maxSourceMtime (src : Sources) : Int := (sourceMtimes src).foldr max 0

/-- A machine whose cache file (time 20) is newer than the directory and the
    flat file (time 10) and records PASS for is-dev-true, and in whose
    directory the file base was touched afterwards (time 30); the directory
    also holds a hidden file that is newer still (time 50). -/
def touchedWorld : World :=
  { src := { ordata := some [{ name := ".hidden".toList, mtime := 50, content := none },
                             { name := "base".toList, mtime := 30,
                               content := some "export ORDISSIMO_MODEL=Tablet\n".toList }],
             ordataMtime := 10,
             osRelease := some "ID=debian\n".toList,
             osReleaseMtime := 10 },
    cache := some (20, cacheText [("00is-dev-true".toList, 0)]),
    now := 60, writable := true }
/-! ## Theorems -/

/-! ### The evaluation loop -/

theorem takeWhile_stop (p : Char → Bool) (a : Str) (b : Char) (t : Str)
    (ha : ∀ c ∈ a, p c = true) (hb : p b = false) :
    (a ++ b :: t).takeWhile p = a := by
  induction a with
  | nil => simp [List.takeWhile, hb]
  | cons x xs ih =>
    have hx : p x = true := ha x (by simp)
    rw [List.cons_append, List.takeWhile_cons, hx, ih (fun c hc => ha c (by simp [hc]))]
    rfl

theorem dropWhile_stop (p : Char → Bool) (a : Str) (b : Char) (t : Str)
    (ha : ∀ c ∈ a, p c = true) (hb : p b = false) :
    (a ++ b :: t).dropWhile p = b :: t := by
  induction a with
  | nil => simp [List.dropWhile, hb]
  | cons x xs ih =>
    have hx : p x = true := ha x (by simp)
    rw [List.cons_append, List.dropWhile_cons, hx]
    exact ih (fun c hc => ha c (by simp [hc]))

theorem matchTestWith_text (cond key val : Str)
    (hk : key ≠ []) (hh : '-' ∉ key) (hv : val ≠ []) (hn : '\n' ∉ val) (hr : '\r' ∉ val) :
    matchTestWith cond (cond ++ '-' :: (key ++ '-' :: val)) = some (cond, key, val) := by
  have hpre : startsWith (cond ++ ['-']) (cond ++ '-' :: (key ++ '-' :: val)) = true := by
    have : cond ++ '-' :: (key ++ '-' :: val) = (cond ++ ['-']) ++ (key ++ '-' :: val) := by simp
    rw [this]; simp [startsWith]
  have hdrop : (cond ++ '-' :: (key ++ '-' :: val)).drop (cond.length + 1) = key ++ '-' :: val := by
    have : cond ++ '-' :: (key ++ '-' :: val) = (cond ++ ['-']) ++ (key ++ '-' :: val) := by simp
    rw [this]
    exact List.drop_left' (by simp)
  have hall : ∀ c ∈ key, (fun c : Char => c != '-') c = true := by
    intro c hc
    simp only [bne_iff_ne, ne_eq]
    intro h; exact hh (h ▸ hc)
  have htake := takeWhile_stop (fun c : Char => c != '-') key '-' val hall (by simp)
  have hdropw := dropWhile_stop (fun c : Char => c != '-') key '-' val hall (by simp)
  have hval : val.all (fun c => c != '\n' && c != '\r') = true := by
    simp only [List.all_eq_true, Bool.and_eq_true, bne_iff_ne, ne_eq]
    intro c hc
    exact ⟨fun h => hn (h ▸ hc), fun h => hr (h ▸ hc)⟩
  unfold matchTestWith
  simp only [hpre, hdrop, htake, hdropw, hval]
  cases key with
  | nil => exact absurd rfl hk
  | cons a as =>
    cases val with
    | nil => exact absurd rfl hv
    | cons b bs => simp

theorem matchTest_text (p : Pred) (h : p.WellFormed) :
    matchTest p.text = some (if p.isnot then "isnot".toList else "is".toList, p.key, p.val) := by
  obtain ⟨hk, hh, hv, hn, hr, _⟩ := h
  unfold matchTest Pred.text
  cases hp : p.isnot with
  | false =>
    simp only [Bool.false_eq_true, if_false]
    rw [matchTestWith_text _ _ _ hk hh hv hn hr]
  | true =>
    simp only [if_true]
    have h1 : matchTestWith "is".toList ("isnot".toList ++ '-' :: (p.key ++ '-' :: p.val)) = none := by
      simp [matchTestWith, startsWith, List.isPrefixOf]
    rw [h1, matchTestWith_text _ _ _ hk hh hv hn hr]

theorem testLoop_absent (data : Map Str) (a : Bool) (p : Pred) (ts : List Str) (fail : Bool)
    (hwf : p.WellFormed) (hfind : data.find p.key = none) :
    testLoop data a (p.text :: ts) fail = .ok .notFound := by
  rw [testLoop, matchTest_text p hwf]
  simp only [hfind]

theorem testLoop_step (data : Map Str) (a : Bool) (p : Pred) (ts : List Str) (fail : Bool)
    (hwf : p.WellFormed) (hpres : p.present data = true) :
    testLoop data a (p.text :: ts) fail
      = if a && !p.holds data then .ok (.done true)
        else testLoop data a ts (if p.holds data then false else fail) := by
  rw [testLoop, matchTest_text p hwf]
  unfold Pred.present at hpres
  cases hfind : data.find p.key with
  | none => simp [hfind] at hpres
  | some v =>
    have hlow : toLower p.val = p.val := hwf.2.2.2.2.2
    simp only [Pred.holds, hfind, hlow]
    cases hp : p.isnot <;> simp [startsWith, List.isPrefixOf]

theorem holds_present (data : Map Str) (p : Pred) (h : p.holds data = true) :
    p.present data = true := by
  unfold Pred.holds at h
  unfold Pred.present
  cases hfind : data.find p.key with
  | none => simp [hfind] at h
  | some v => rfl

theorem testLoop_and (data : Map Str) (ps : List Pred) (fail : Bool)
    (h : ∀ p ∈ ps, p.WellFormed ∧ p.present data = true) :
    testLoop data true (ps.map Pred.text) fail
      = .ok (.done (if ps.all (Pred.holds data) then (if ps.isEmpty then fail else false) else true)) := by
  induction ps generalizing fail with
  | nil => simp [testLoop]
  | cons p ps ih =>
    have hp := h p (by simp)
    rw [List.map_cons, testLoop_step data true p _ fail hp.1 hp.2]
    cases hh : p.holds data with
    | false => simp [hh]
    | true =>
      simp only [Bool.true_and, Bool.not_true, Bool.false_eq_true, if_false, if_true]
      rw [ih false (fun q hq => h q (by simp [hq]))]
      cases ps <;> simp [hh]

theorem testLoop_or (data : Map Str) (ps : List Pred) (fail : Bool)
    (h : ∀ p ∈ ps, p.WellFormed ∧ p.present data = true) :
    testLoop data false (ps.map Pred.text) fail
      = .ok (.done (if ps.any (Pred.holds data) then false else fail)) := by
  induction ps generalizing fail with
  | nil => simp [testLoop]
  | cons p ps ih =>
    have hp := h p (by simp)
    rw [List.map_cons, testLoop_step data false p _ fail hp.1 hp.2]
    simp only [Bool.false_and, Bool.false_eq_true, if_false]
    rw [ih _ (fun q hq => h q (by simp [hq]))]
    cases hh : p.holds data <;> simp [hh]

theorem testLoop_and_stop (data : Map Str) (pre : List Pred) (p : Pred) (rest : List Str)
    (fail : Bool) (hpre : ∀ q ∈ pre, q.WellFormed ∧ q.holds data = true)
    (hwf : p.WellFormed) (hpres : p.present data = true) (hno : p.holds data = false) :
    testLoop data true (pre.map Pred.text ++ p.text :: rest) fail = .ok (.done true) := by
  induction pre generalizing fail with
  | nil =>
    rw [List.map_nil, List.nil_append, testLoop_step data true p _ fail hwf hpres]
    simp [hno]
  | cons q qs ih =>
    have hq := hpre q (by simp)
    rw [List.map_cons, List.cons_append,
      testLoop_step data true q _ fail hq.1 (holds_present data q hq.2)]
    simp only [hq.2, Bool.not_true, Bool.and_false, Bool.false_eq_true, if_false, if_true]
    exact ih false (fun r hr => hpre r (by simp [hr]))

theorem testLoop_and_absent (data : Map Str) (pre : List Pred) (p : Pred) (rest : List Str)
    (fail : Bool) (hpre : ∀ q ∈ pre, q.WellFormed ∧ q.holds data = true)
    (hwf : p.WellFormed) (habs : p.present data = false) :
    testLoop data true (pre.map Pred.text ++ p.text :: rest) fail = .ok .notFound := by
  induction pre generalizing fail with
  | nil =>
    rw [List.map_nil, List.nil_append]
    apply testLoop_absent data true p _ fail hwf
    unfold Pred.present at habs
    cases hf : data.find p.key with
    | none => rfl
    | some v => simp [hf] at habs
  | cons q qs ih =>
    have hq := hpre q (by simp)
    rw [List.map_cons, List.cons_append,
      testLoop_step data true q _ fail hq.1 (holds_present data q hq.2)]
    simp only [hq.2, Bool.not_true, Bool.and_false, Bool.false_eq_true, if_false, if_true]
    exact ih false (fun r hr => hpre r (by simp [hr]))

theorem testLoop_or_any (data : Map Str) (ps : List Pred) (fail : Bool)
    (h : ∀ p ∈ ps, p.WellFormed) :
    testLoop data false (ps.map Pred.text) fail
      = if ps.all (Pred.present data) then .ok (.done (if ps.any (Pred.holds data) then false else fail))
        else .ok .notFound := by
  induction ps generalizing fail with
  | nil => simp [testLoop]
  | cons p ps ih =>
    have hp := h p (by simp)
    cases hpres : p.present data with
    | false =>
      have hfind : data.find p.key = none := by
        unfold Pred.present at hpres
        cases hf : data.find p.key with
        | none => rfl
        | some v => simp [hf] at hpres
      rw [List.map_cons, testLoop_absent data false p _ fail hp hfind]
      simp [hpres]
    | true =>
      rw [List.map_cons, testLoop_step data false p _ fail hp hpres]
      simp only [Bool.false_and, Bool.false_eq_true, if_false]
      rw [ih _ (fun q hq => h q (by simp [hq]))]
      cases hh : p.holds data <;> simp [hh, hpres]

theorem testLoop_and_notFound (data : Map Str) (ps : List Pred) (fail : Bool)
    (h : ∀ p ∈ ps, p.WellFormed) :
    testLoop data true (ps.map Pred.text) fail = .ok .notFound
      ↔ ∃ pre p post, ps = pre ++ p :: post ∧ p.present data = false
          ∧ ∀ q ∈ pre, q.holds data = true := by
  constructor
  · intro hnf
    induction ps generalizing fail with
    | nil => simp [testLoop] at hnf
    | cons p ps ih =>
      have hp := h p (by simp)
      cases hpres : p.present data with
      | false => exact ⟨[], p, ps, rfl, hpres, by simp⟩
      | true =>
        rw [List.map_cons, testLoop_step data true p _ fail hp hpres] at hnf
        cases hh : p.holds data with
        | false => simp [hh] at hnf
        | true =>
          simp only [hh, Bool.not_true, Bool.and_false, Bool.false_eq_true, if_false,
            if_true] at hnf
          obtain ⟨pre, q, post, heq, hq, hall⟩ := ih false (fun r hr => h r (by simp [hr])) hnf
          refine ⟨p :: pre, q, post, by simp [heq], hq, ?_⟩
          intro r hr
          rcases List.mem_cons.mp hr with rfl | hr
          · exact hh
          · exact hall r hr
  · rintro ⟨pre, p, post, rfl, hp, hall⟩
    rw [List.map_append, List.map_cons]
    exact testLoop_and_absent data pre p _ fail
      (fun q hq => ⟨h q (by simp [hq]), hall q hq⟩) (h p (by simp)) hp

/-! ### runTests on a cache miss -/

theorem evaluate_code (w : World) (cacheMap : Map Int) (key : Str) (tests : List Str)
    (a q : Bool) : (evaluate w cacheMap key tests a q).code = evalDirect w.src tests a := by
  unfold evaluate evalDirect
  cases getAllData w.src with
  | error e => rfl
  | ok data =>
    dsimp only
    cases testLoop data a tests true with
    | error e => rfl
    | ok r =>
      cases r with
      | notFound => rfl
      | done fail => cases fail <;> simp [EXIT_SUCCESS, EXIT_FAIL]

theorem runTests_miss (w : World) (tests : List Str) (a o q : Bool)
    (hmiss : cacheMiss w (cachedKey tests a o) = true) :
    (runTests w tests a o q).code = evalDirect w.src tests a := by
  unfold cacheMiss at hmiss
  unfold runTests
  cases hc : w.cache with
  | none => simp only [evaluate_code]
  | some c =>
    obtain ⟨mtime, content⟩ := c
    simp only [hc] at hmiss
    by_cases hst : mtime < getMaxMtime w.src
    · simp only [hst, if_true, evaluate_code]
    · simp only [hst, if_false, decide_False, Bool.false_or] at hmiss ⊢
      cases hr : readCache content with
      | error e => simp [hr] at hmiss
      | ok cacheMap =>
        simp only [hr] at hmiss
        cases hf : cacheMap.find (cachedKey tests a o) with
        | some v => simp [hf] at hmiss
        | none => simp only [hf, evaluate_code]

theorem and_outcome (w : World) (data : Map Str) (_or quiet : Bool)
    (hdata : getAllData w.src = .ok data) (ps : List Pred)
    (hps : ∀ p ∈ ps, p.WellFormed ∧ p.present data = true)
    (hmiss : cacheMiss w (cachedKey (ps.map Pred.text) true _or) = true) :
    (runTests w (ps.map Pred.text) true _or quiet).code
      = .ok (if !ps.isEmpty && ps.all (Pred.holds data) then EXIT_SUCCESS else EXIT_FAIL) := by
  rw [runTests_miss w _ true _or quiet hmiss]
  unfold evalDirect
  simp only [hdata, testLoop_and data ps true hps]
  cases ps with
  | nil => simp
  | cons p ps => cases hh : (p :: ps).all (Pred.holds data) <;> simp [hh]

theorem or_outcome (w : World) (data : Map Str) (_or quiet : Bool)
    (hdata : getAllData w.src = .ok data) (ps : List Pred)
    (hps : ∀ p ∈ ps, p.WellFormed ∧ p.present data = true)
    (hmiss : cacheMiss w (cachedKey (ps.map Pred.text) false _or) = true) :
    (runTests w (ps.map Pred.text) false _or quiet).code
      = .ok (if ps.any (Pred.holds data) then EXIT_SUCCESS else EXIT_FAIL) := by
  rw [runTests_miss w _ false _or quiet hmiss]
  unfold evalDirect
  simp only [hdata, testLoop_or data ps true hps]
  cases hh : ps.any (Pred.holds data) <;> simp

/-- C1: on a cache miss and under AND, runTests returns PASS (0) exactly when the list of
    well-formed predicates with keys in the table is not empty and every predicate holds,
    and FAIL (3) otherwise; and it returns FAIL as soon as one predicate does not hold,
    whatever follows that predicate in the list. -/
theorem runTests_and (w : World) (data : Map Str) (_or quiet : Bool)
    (hdata : getAllData w.src = .ok data) :
    (∀ ps : List Pred, (∀ p ∈ ps, p.WellFormed ∧ p.present data = true) →
      cacheMiss w (cachedKey (ps.map Pred.text) true _or) = true →
      (runTests w (ps.map Pred.text) true _or quiet).code
        = .ok (if !ps.isEmpty && ps.all (Pred.holds data) then EXIT_SUCCESS else EXIT_FAIL))
    ∧ (∀ (pre : List Pred) (p : Pred) (rest : List Str),
      (∀ q ∈ pre, q.WellFormed ∧ q.holds data = true) →
      p.WellFormed → p.present data = true → p.holds data = false →
      cacheMiss w (cachedKey (pre.map Pred.text ++ p.text :: rest) true _or) = true →
      (runTests w (pre.map Pred.text ++ p.text :: rest) true _or quiet).code = .ok EXIT_FAIL) := by
  constructor
  · intro ps hps hmiss
    exact and_outcome w data _or quiet hdata ps hps hmiss
  · intro pre p rest hpre hwf hpres hno hmiss
    rw [runTests_miss w _ true _or quiet hmiss]
    unfold evalDirect
    simp only [hdata, testLoop_and_stop data pre p rest true hpre hwf hpres hno]
    simp

/-- An instance of C1: AND of is-dev-true and isnot-dev-true on a table with dev=false. -/
theorem runTests_and_witness :
    getAllData demoWorld.src = .ok demoTable
    ∧ (runTests demoWorld
        [(Pred.mk false "dev".toList "true".toList).text, "isnot-dev-true".toList]
        true false false).code = .ok EXIT_FAIL :=
  ⟨by decide,
   (runTests_and demoWorld demoTable false false (by decide)).2 []
     (Pred.mk false "dev".toList "true".toList) ["isnot-dev-true".toList]
     (by simp) (by decide) (by decide) (by decide) (by decide)⟩

/-- C2: on a cache miss and under OR (the flag --and not given), runTests returns PASS (0)
    exactly when at least one predicate of the list of well-formed predicates with keys in
    the table holds, and FAIL (3) otherwise; the empty list evaluates to FAIL. -/
theorem runTests_or (w : World) (data : Map Str) (_or quiet : Bool)
    (hdata : getAllData w.src = .ok data) :
    (∀ ps : List Pred, (∀ p ∈ ps, p.WellFormed ∧ p.present data = true) →
      cacheMiss w (cachedKey (ps.map Pred.text) false _or) = true →
      (runTests w (ps.map Pred.text) false _or quiet).code
        = .ok (if ps.any (Pred.holds data) then EXIT_SUCCESS else EXIT_FAIL))
    ∧ (cacheMiss w (cachedKey [] false _or) = true →
      (runTests w [] false _or quiet).code = .ok EXIT_FAIL) := by
  constructor
  · intro ps hps hmiss
    exact or_outcome w data _or quiet hdata ps hps hmiss
  · intro hmiss
    rw [runTests_miss w _ false _or quiet hmiss]
    unfold evalDirect
    simp [hdata, testLoop]

/-- An instance of C2: OR of is-custom-none and is-dev-true on a table with custom=none. -/
theorem runTests_or_witness :
    getAllData demoWorld.src = .ok demoTable
    ∧ (runTests demoWorld
        ([Pred.mk false "custom".toList "none".toList,
          Pred.mk false "dev".toList "true".toList].map Pred.text)
        false true false).code = .ok EXIT_SUCCESS :=
  ⟨by decide,
   (runTests_or demoWorld demoTable true false (by decide)).1
     [Pred.mk false "custom".toList "none".toList, Pred.mk false "dev".toList "true".toList]
     (by decide) (by decide)⟩

/-- C4: on a cache miss, for a list of well-formed predicates, runTests returns NOT_FOUND (2)
    under OR exactly when the key of some predicate is absent from the table, and under AND
    exactly when a predicate with an absent key is reached while every predicate before it
    holds. -/
theorem runTests_notFound (w : World) (data : Map Str) (_or quiet : Bool) (ps : List Pred)
    (hdata : getAllData w.src = .ok data) (hwf : ∀ p ∈ ps, p.WellFormed) :
    (cacheMiss w (cachedKey (ps.map Pred.text) false _or) = true →
      ((runTests w (ps.map Pred.text) false _or quiet).code = .ok EXIT_NOTFOUND
        ↔ ∃ p ∈ ps, p.present data = false))
    ∧ (cacheMiss w (cachedKey (ps.map Pred.text) true _or) = true →
      ((runTests w (ps.map Pred.text) true _or quiet).code = .ok EXIT_NOTFOUND
        ↔ ∃ pre p post, ps = pre ++ p :: post ∧ p.present data = false
            ∧ ∀ q ∈ pre, q.holds data = true)) := by
  constructor
  · intro hmiss
    rw [runTests_miss w _ false _or quiet hmiss]
    unfold evalDirect
    simp only [hdata, testLoop_or_any data ps true hwf]
    by_cases hall : ps.all (Pred.present data) = true
    · simp only [hall, if_true]
      constructor
      · intro h
        exfalso
        revert h
        cases ps.any (Pred.holds data) <;> simp [EXIT_NOTFOUND, EXIT_FAIL, EXIT_SUCCESS]
      · rintro ⟨p, hp, hpres⟩
        rw [List.all_eq_true] at hall
        rw [hall p hp] at hpres
        exact absurd hpres (by simp)
    · simp only [hall, if_false, true_iff]
      simpa using hall
  · intro hmiss
    rw [runTests_miss w _ true _or quiet hmiss]
    rw [← testLoop_and_notFound data ps true hwf]
    unfold evalDirect
    simp only [hdata]
    cases testLoop data true (ps.map Pred.text) true with
    | error e => simp
    | ok r =>
      cases r with
      | notFound => simp
      | done fail => cases fail <;> simp [EXIT_NOTFOUND, EXIT_FAIL, EXIT_SUCCESS]

/-- An instance of C4: under AND, isnot-dev-true holds and the key nokey is absent. -/
theorem runTests_notFound_witness :
    getAllData demoWorld.src = .ok demoTable
    ∧ (runTests demoWorld
        ([Pred.mk true "dev".toList "true".toList,
          Pred.mk false "nokey".toList "x".toList].map Pred.text)
        true false false).code = .ok EXIT_NOTFOUND :=
  ⟨by decide,
   ((runTests_notFound demoWorld demoTable false false
      [Pred.mk true "dev".toList "true".toList, Pred.mk false "nokey".toList "x".toList]
      (by decide) (by decide)).2 (by decide)).mpr
     ⟨[Pred.mk true "dev".toList "true".toList], Pred.mk false "nokey".toList "x".toList, [],
      rfl, by decide, by decide⟩⟩

theorem evaluate_notFound_world (w : World) (cacheMap : Map Int) (key : Str)
    (tests : List Str) (a q : Bool)
    (h : (evaluate w cacheMap key tests a q).code = .ok EXIT_NOTFOUND) :
    (evaluate w cacheMap key tests a q).world = w := by
  revert h
  unfold evaluate
  cases getAllData w.src with
  | error e => intro _; rfl
  | ok data =>
    dsimp only
    cases testLoop data a tests true with
    | error e => intro _; rfl
    | ok r =>
      cases r with
      | notFound => intro _; rfl
      | done fail => cases fail <;> simp [EXIT_NOTFOUND, EXIT_FAIL, EXIT_SUCCESS]

/-- C5: when runTests returns NOT_FOUND the cache file is not written: the machine is left
    as it was, or with the outdated cache file removed; and when that outcome comes from the
    evaluation (a cache miss), the map read from the cache afterwards has no entry under the
    canonical key of the query. -/
theorem notFound_not_cached (w : World) (tests : List Str) (_and _or quiet : Bool)
    (h : (runTests w tests _and _or quiet).code = .ok EXIT_NOTFOUND) :
    ((runTests w tests _and _or quiet).world = w
      ∨ (runTests w tests _and _or quiet).world = { w with cache := none })
    ∧ (cacheMiss w (cachedKey tests _and _or) = true →
      cacheEntry (runTests w tests _and _or quiet).world (cachedKey tests _and _or)
        = .ok none) := by
  unfold runTests at h ⊢
  unfold cacheMiss
  cases hc : w.cache with
  | none =>
    simp only [hc] at h
    simp only [evaluate_notFound_world w _ _ _ _ _ h, true_or, true_and]
    intro _
    simp [cacheEntry, hc]
  | some c =>
    obtain ⟨mtime, content⟩ := c
    simp only [hc] at h
    by_cases hst : mtime < getMaxMtime w.src
    · simp only [hst, if_true] at h ⊢
      simp only [evaluate_notFound_world _ _ _ _ _ _ h, or_true, true_and]
      intro _
      simp [cacheEntry]
    · simp only [hst, if_false, decide_False, Bool.false_or] at h ⊢
      cases hr : readCache content with
      | error e => simp [hr] at h
      | ok cacheMap =>
        simp only [hr] at h ⊢
        cases hf : cacheMap.find (cachedKey tests _and _or) with
        | some v => simp
        | none =>
          simp only [hf] at h ⊢
          simp only [evaluate_notFound_world _ _ _ _ _ _ h, true_or, true_and]
          intro _
          simp [cacheEntry, hc, hr, hf]

/-- An instance of C5: the query is-nonexistentkey-x leaves no cache file behind. -/
theorem notFound_not_cached_witness :
    (runTests demoWorld ["is-nonexistentkey-x".toList] false false false).code
      = .ok EXIT_NOTFOUND
    ∧ (runTests demoWorld ["is-nonexistentkey-x".toList] false false false).world.cache
      = none :=
  ⟨by decide, by
    have h := (notFound_not_cached demoWorld ["is-nonexistentkey-x".toList] false false false
      (by decide)).1
    rcases h with h | h
    · rw [h]; rfl
    · rw [h]⟩

/-! ### Lower case and the regexes of parseArgs -/

theorem ofNat_add_toNat (n : Nat) (h1 : 65 ≤ n) (h2 : n ≤ 90) :
    (Char.ofNat (n + 32)).toNat = n + 32 := by
  interval_cases n <;> rfl

theorem tolower_toNat (c : Char) :
    (tolower c).toNat = if 65 ≤ c.toNat ∧ c.toNat ≤ 90 then c.toNat + 32 else c.toNat := by
  unfold tolower
  split
  · next h => exact ofNat_add_toNat _ h.1 h.2
  · rfl

theorem tolower_fixed (c : Char) (h : ¬ (65 ≤ c.toNat ∧ c.toNat ≤ 90)) : tolower c = c := by
  unfold tolower
  rw [if_neg h]

theorem tolower_idem (c : Char) : tolower (tolower c) = tolower c := by
  apply tolower_fixed
  rw [tolower_toNat c]
  split <;> omega

theorem tolower_eq_iff (c d : Char) (hd : ¬ (65 ≤ d.toNat ∧ d.toNat ≤ 90))
    (hd2 : ¬ (97 ≤ d.toNat ∧ d.toNat ≤ 122)) : tolower c = d ↔ c = d := by
  constructor
  · intro h
    have h1 := tolower_toNat c
    rw [h] at h1
    by_cases hc : 65 ≤ c.toNat ∧ c.toNat ≤ 90
    · rw [if_pos hc] at h1
      omega
    · rw [tolower_fixed c hc] at h
      exact h
  · intro h
    rw [h]
    exact tolower_fixed d hd

theorem toLower_idem (s : Str) : toLower (toLower s) = toLower s := by
  unfold toLower
  rw [List.map_map]
  apply List.map_congr_left
  intro c _
  exact tolower_idem c

theorem isKeyChar_fixed (c : Char) (h : isKeyChar c = true) : tolower c = c := by
  apply tolower_fixed
  unfold isKeyChar at h
  simp only [Bool.or_eq_true, Bool.and_eq_true, decide_eq_true_eq, beq_iff_eq] at h
  rcases h with h | h
  · omega
  · rw [h]; decide

theorem toLower_key (k : Str) (h : matchKeyRegex k = true) : toLower k = k := by
  unfold matchKeyRegex at h
  simp only [Bool.and_eq_true, List.all_eq_true] at h
  unfold toLower
  conv_rhs => rw [← List.map_id k]
  apply List.map_congr_left
  intro c hc
  exact isKeyChar_fixed c (h.2 c hc)

theorem not_mem_toLower (d : Char) (v : Str) (hd : ¬ (65 ≤ d.toNat ∧ d.toNat ≤ 90))
    (hd2 : ¬ (97 ≤ d.toNat ∧ d.toNat ≤ 122)) (h : d ∉ v) : d ∉ toLower v := by
  unfold toLower
  intro hm
  obtain ⟨c, hc, hcd⟩ := List.mem_map.mp hm
  rw [tolower_eq_iff c d hd hd2] at hcd
  exact h (hcd ▸ hc)

theorem tolower_quote (c : Char) : (tolower c = '"') = (c = '"') :=
  propext (tolower_eq_iff c '"' (by decide) (by decide))

theorem matchArgValue_toLower (v : Str) : matchArgValue (toLower v) = matchArgValue v := by
  cases v with
  | nil => rfl
  | cons c r =>
    have hall : ∀ l : Str, (l.map tolower).all (fun x => x != '"') = l.all (fun x => x != '"') := by
      intro l
      induction l with
      | nil => rfl
      | cons x xs ih =>
        rw [List.map_cons, List.all_cons, List.all_cons, ih]
        congr 1
        rw [Bool.eq_iff_iff]
        simp only [bne_iff_ne, ne_eq, tolower_quote]
    have hlast : ((r.map tolower).getLast? == some '"') = (r.getLast? == some '"') := by
      rw [List.getLast?_map]
      cases r.getLast? with
      | none => rfl
      | some x =>
        rw [Bool.eq_iff_iff]
        simp only [Option.map_some', beq_iff_eq, Option.some.injEq, tolower_quote]
    unfold matchArgValue toLower
    simp only [List.map_cons, tolower_quote, List.length_map, hlast, ← List.map_dropLast, hall]
    rw [← List.map_cons, hall]

theorem matchArgWith_text (cond key val : Str) (hk : matchKeyRegex key = true)
    (hv : matchArgValue val = true) :
    matchArgWith cond (cond ++ '-' :: (key ++ '-' :: val)) = true := by
  have hsplit : cond ++ '-' :: (key ++ '-' :: val) = (cond ++ ['-']) ++ (key ++ '-' :: val) := by
    simp
  have hpre : startsWith (cond ++ ['-']) (cond ++ '-' :: (key ++ '-' :: val)) = true := by
    rw [hsplit]; simp [startsWith]
  have hdrop : (cond ++ '-' :: (key ++ '-' :: val)).drop (cond.length + 1) = key ++ '-' :: val := by
    rw [hsplit]
    exact List.drop_left' (by simp)
  unfold matchKeyRegex at hk
  simp only [Bool.and_eq_true, List.all_eq_true] at hk
  have htake := takeWhile_stop isKeyChar key '-' val hk.2 (by decide)
  have hdropw := dropWhile_stop isKeyChar key '-' val hk.2 (by decide)
  unfold matchArgWith
  simp only [hpre, hdrop, htake, hdropw, hv, hk.1]
  simp

theorem matchTestRegex_text (p : Pred) (hk : matchKeyRegex p.key = true)
    (hv : matchArgValue p.val = true) : matchTestRegex p.text = true := by
  unfold matchTestRegex Pred.text
  cases p.isnot with
  | false =>
    simp only [Bool.false_eq_true, if_false]
    rw [matchArgWith_text _ _ _ hk hv]
    rfl
  | true =>
    simp only [if_true]
    rw [matchArgWith_text _ _ _ hk hv]
    simp

theorem startsWith_text (p : Pred) :
    (startsWith "is-".toList p.text || startsWith "isnot-".toList p.text) = true := by
  unfold Pred.text
  cases p.isnot <;> simp [startsWith, List.isPrefixOf]

theorem toLower_text (isnot : Bool) (k v : Str) (hk : matchKeyRegex k = true) :
    toLower (Pred.mk isnot k v).text = (Pred.mk isnot k (toLower v)).text := by
  have hk2 := toLower_key k hk
  unfold toLower at hk2 ⊢
  unfold Pred.text
  simp only [List.map_append, List.map_cons, hk2]
  cases isnot <;> rfl

theorem wellFormed_of_arg (isnot : Bool) (k v : Str) (hk : matchKeyRegex k = true)
    (hv : matchArgValue v = true) (hn : '\n' ∉ v) (hr : '\r' ∉ v) :
    (Pred.mk isnot k (toLower v)).WellFormed := by
  unfold matchKeyRegex at hk
  simp only [Bool.and_eq_true, List.all_eq_true] at hk
  refine ⟨?_, ?_, ?_, ?_, ?_, toLower_idem v⟩
  · intro h
    simp only at h
    simp [h] at hk
  · intro h
    have := hk.2 '-' h
    revert this
    decide
  · intro h
    have h2 : v = [] := by
      unfold toLower at h
      simpa using h
    rw [h2] at hv
    simp [matchArgValue] at hv
  · exact not_mem_toLower '\n' v (by decide) (by decide) hn
  · exact not_mem_toLower '\r' v (by decide) (by decide) hr

theorem runArgs_single (w : World) (data : Map Str) (k tv v arg : Str) (isnot : Bool)
    (_and _or quiet : Bool)
    (hflags : (_and && _or) = false)
    (hdata : getAllData w.src = .ok data) (hfind : data.find k = some tv)
    (hk : matchKeyRegex k = true) (hv : matchArgValue v = true)
    (hn : '\n' ∉ v) (hr : '\r' ∉ v)
    (harg : toLower arg = toLower (Pred.mk isnot k v).text)
    (hmiss : cacheMiss w (cachedKey [toLower arg] _and _or) = true) :
    (runArgs w [arg] _and _or quiet).map Run.code
      = some (.ok (if (decide (toLower tv = toLower v) != isnot) then EXIT_SUCCESS
                   else EXIT_FAIL)) := by
  rw [toLower_text isnot k v hk] at harg
  have hwf := wellFormed_of_arg isnot k v hk hv hn hr
  have hre : matchTestRegex (Pred.mk isnot k (toLower v)).text = true :=
    matchTestRegex_text _ hk (by rw [matchArgValue_toLower]; exact hv)
  have hpres : (Pred.mk isnot k (toLower v)).present data = true := by
    simp [Pred.present, hfind]
  have hholds : (Pred.mk isnot k (toLower v)).holds data
      = (decide (toLower tv = toLower v) != isnot) := by
    simp only [Pred.holds, hfind, toLower_idem]
    cases isnot <;> simp
  have hparse : parseArgs [arg] [] [] = .ok ([], [(Pred.mk isnot k (toLower v)).text]) := by
    unfold parseArgs
    simp only [harg, startsWith_text, hre]
    simp [parseArgs]
  unfold runArgs
  rw [hparse, hflags]
  rw [harg] at hmiss
  simp only [List.isEmpty_nil, List.isEmpty_cons, Bool.not_true, Bool.false_eq_true, if_false,
    Option.map_some']
  cases _and with
  | true =>
    have h := and_outcome w data _or quiet hdata [Pred.mk isnot k (toLower v)]
      (by simpa using ⟨hwf, hpres⟩) hmiss
    simp only [List.map_cons, List.map_nil] at h
    rw [h]
    simp [hholds]
  | false =>
    have h := or_outcome w data _or quiet hdata [Pred.mk isnot k (toLower v)]
      (by simpa using ⟨hwf, hpres⟩) hmiss
    simp only [List.map_cons, List.map_nil] at h
    rw [h]
    simp [hholds]

/-- C3, as stated, fails: with the attribute dev set to the empty text, the expected
    value v = "" equals table[dev], and still the query is-dev- does not evaluate to PASS:
    parseArgs rejects the argument and the run ends with a fatal error. -/
theorem single_query_counterexample :
    (∃ data, getAllData emptyDevWorld.src = .ok data
      ∧ data.find "dev".toList = some []
      ∧ toLower ([] : Str) = toLower ([] : Str))
    ∧ cacheMiss emptyDevWorld (cachedKey [toLower (Pred.mk false "dev".toList []).text] false false)
        = true
    ∧ (runArgs emptyDevWorld [(Pred.mk false "dev".toList []).text] false false false).map
        Run.code = some (.error .fatal) :=
  ⟨⟨[("custom".toList, "none".toList), ("dev".toList, []), ("os_id".toList, "debian".toList)],
    by decide, by decide, rfl⟩,
   by decide, by decide⟩

/-- C3 (amended): for a key k of the form [a-z_]+ that is in the table and an expected value
    v that is not empty, has no line break and is free of double quotes or enclosed in two of
    them, a single-predicate query written in any letter case (with at most one of the flags
    --and and --or) evaluates on a cache miss to PASS for is-k-v when lowercase(table[k])
    equals lowercase(v) and to FAIL when it does not, and to PASS for isnot-k-v exactly when
    is-k-v evaluates to FAIL. -/
theorem single_query (w : World) (data : Map Str) (k tv v argIs argNot : Str)
    (_and _or quiet : Bool)
    (hflags : (_and && _or) = false)
    (hdata : getAllData w.src = .ok data) (hfind : data.find k = some tv)
    (hk : matchKeyRegex k = true) (hv : matchArgValue v = true)
    (hn : '\n' ∉ v) (hr : '\r' ∉ v)
    (hIs : toLower argIs = toLower (Pred.mk false k v).text)
    (hNot : toLower argNot = toLower (Pred.mk true k v).text)
    (hmissIs : cacheMiss w (cachedKey [toLower argIs] _and _or) = true)
    (hmissNot : cacheMiss w (cachedKey [toLower argNot] _and _or) = true) :
    (runArgs w [argIs] _and _or quiet).map Run.code
        = some (.ok (if toLower tv = toLower v then EXIT_SUCCESS else EXIT_FAIL))
    ∧ (runArgs w [argNot] _and _or quiet).map Run.code
        = some (.ok (if toLower tv = toLower v then EXIT_FAIL else EXIT_SUCCESS))
    ∧ ((runArgs w [argNot] _and _or quiet).map Run.code = some (.ok EXIT_SUCCESS)
        ↔ (runArgs w [argIs] _and _or quiet).map Run.code = some (.ok EXIT_FAIL)) := by
  have h1 := runArgs_single w data k tv v argIs false _and _or quiet hflags hdata hfind hk hv
    hn hr hIs hmissIs
  have h2 := runArgs_single w data k tv v argNot true _and _or quiet hflags hdata hfind hk hv
    hn hr hNot hmissNot
  rw [h1, h2]
  by_cases he : toLower tv = toLower v <;> simp [he, EXIT_SUCCESS, EXIT_FAIL]

/-- An instance of C3: the table has model=Tablet and the arguments are in mixed case. -/
theorem single_query_witness :
    (runArgs demoWorld ["IS-Model-TABLET".toList] false false false).map Run.code
        = some (.ok EXIT_SUCCESS)
    ∧ (runArgs demoWorld ["IsNot-model-Tablet".toList] false false false).map Run.code
        = some (.ok EXIT_FAIL) := by
  have h := single_query demoWorld demoTable "model".toList "Tablet".toList "TABLET".toList
    "IS-Model-TABLET".toList "IsNot-model-Tablet".toList false false false
    (by decide) (by decide) (by decide) (by decide) (by decide) (by decide) (by decide)
    (by decide) (by decide) (by decide) (by decide)
  exact ⟨h.1.trans (by decide), h.2.1.trans (by decide)⟩

/-! ### The search loop of readCache ends within its fuel -/

theorem length_dropWhile_le (p : Char → Bool) (l : Str) :
    (l.dropWhile p).length ≤ l.length := by
  induction l with
  | nil => simp
  | cons x xs ih =>
    rw [List.dropWhile_cons]
    split
    · simp only [List.length_cons]; omega
    · exact Nat.le_refl _

theorem length_of_dropWhile_eq (p : Char → Bool) (l : Str) (x : Char) (r : Str)
    (h : l.dropWhile p = x :: r) : r.length < l.length := by
  have := length_dropWhile_le p l
  rw [h, List.length_cons] at this
  omega

theorem matchEntryValue_shorter (t value suffix : Str)
    (h : matchEntryValue t = some (value, suffix)) : suffix.length < t.length := by
  unfold matchEntryValue at h
  split at h
  · simp at h
  · rename_i x1 t1 h1
    split at h
    · simp at h
    · split at h
      · simp at h
      · rename_i x2 t2 h2
        split at h
        · simp at h
        · split at h
          · simp at h
          · rename_i x3 t3 h3
            simp only [Option.some.injEq, Prod.mk.injEq] at h
            have e1 := length_of_dropWhile_eq _ _ _ _ h1
            have e2 := length_of_dropWhile_eq _ _ _ _ h2
            have e3 := length_of_dropWhile_eq _ _ _ _ h3
            rw [← h.2]
            omega

theorem matchEntry_shorter (s key value suffix : Str)
    (h : matchEntry s = some (key, value, suffix)) : suffix.length < s.length := by
  unfold matchEntry at h
  split at h
  · simp at h
  · rename_i c t
    split at h
    · simp at h
    · dsimp only at h
      split at h
      · simp at h
      · rename_i x1 t1 h1
        have e0 := length_dropWhile_le isspace t
        have e1 := length_of_dropWhile_eq _ _ _ _ h1
        cases hv : matchEntryValue t1 with
        | none =>
          rw [hv] at h
          simp at h
        | some r =>
          obtain ⟨value1, suffix1⟩ := r
          have e2 := matchEntryValue_shorter _ _ _ hv
          rw [hv] at h
          simp only [ite_eq_right_iff, Option.ite_none_left_eq_some, Option.some.injEq,
            Prod.mk.injEq] at h
          rw [← h.2.2.2]
          simp only [List.length_cons]
          omega

theorem searchEntries_fuel (n : Nat) (s : Str) (cache : Map Int) (h : s.length ≤ n) :
    searchEntries n s cache = searchEntries s.length s cache := by
  induction n using Nat.strong_induction_on generalizing s cache with
  | _ n ih =>
    cases s with
    | nil => cases n <;> rfl
    | cons c t =>
      cases n with
      | zero => simp at h
      | succ n =>
        simp only [List.length_cons] at h ⊢
        unfold searchEntries
        cases hm : matchEntry (c :: t) with
        | none =>
          simp only
          exact ih n (Nat.lt_succ_self n) t cache (by omega)
        | some m =>
          obtain ⟨key, value, suffix⟩ := m
          have hlen := matchEntry_shorter _ _ _ _ hm
          simp only [List.length_cons] at hlen
          simp only
          cases stoi value with
          | none => rfl
          | some v =>
            simp only
            rw [ih n (Nat.lt_succ_self n) suffix _ (by omega)]
            by_cases ht : t.length = n
            · rw [ht]
              exact (ih n (Nat.lt_succ_self n) suffix _ (by omega)).symm ▸ rfl
            · rw [ih t.length (by omega) suffix _ (by omega)]

/-! ### Reading back what writeCache wrote -/

theorem strLt_irrefl (a : Str) : strLt a a = false := by
  induction a with
  | nil => rfl
  | cons x xs ih => simp [strLt, ih]

theorem strLt_asymm (a b : Str) (h : strLt a b = true) : strLt b a = false := by
  induction a generalizing b with
  | nil =>
    cases b with
    | nil => rfl
    | cons y ys => rfl
  | cons x xs ih =>
    cases b with
    | nil => simp [strLt] at h
    | cons y ys =>
      simp only [strLt, Bool.or_eq_true, decide_eq_true_eq, Bool.and_eq_true, beq_iff_eq] at h
      simp only [strLt, Bool.or_eq_false_iff, decide_eq_false_iff_not, Bool.and_eq_false_imp,
        beq_iff_eq]
      rcases h with h | ⟨h1, h2⟩
      · constructor
        · omega
        · intro hyx
          rw [hyx] at h
          omega
      · constructor
        · rw [h1]; omega
        · intro _
          exact ih ys h2

theorem assign_append (acc : Map Int) (k : Str) (v : Int)
    (h : ∀ e ∈ acc, strLt e.1 k = true) : acc.assign k v = acc ++ [(k, v)] := by
  induction acc with
  | nil => rfl
  | cons e es ih =>
    obtain ⟨k1, v1⟩ := e
    have h1 : strLt k1 k = true := h (k1, v1) (by simp)
    have hne : k ≠ k1 := by
      intro heq
      rw [heq, strLt_irrefl] at h1
      exact absurd h1 (by simp)
    have h2 : strLt k k1 = false := strLt_asymm k1 k h1
    simp only [Map.assign, hne, if_false, h2, Bool.false_eq_true, List.cons_append]
    rw [ih (fun e he => h e (by simp [he]))]

theorem digitsValue_shift (acc : Nat) (l : Str) :
    digitsValue acc l = acc * 10 ^ l.length + digitsValue 0 l := by
  induction l generalizing acc with
  | nil => simp [digitsValue]
  | cons c cs ih =>
    have e1 : digitsValue acc (c :: cs) = digitsValue (10 * acc + (c.toNat - 48)) cs := rfl
    have e2 : digitsValue 0 (c :: cs) = digitsValue (10 * 0 + (c.toNat - 48)) cs := rfl
    rw [e1, e2, ih (10 * acc + (c.toNat - 48)), ih (10 * 0 + (c.toNat - 48))]
    simp only [List.length_cons, pow_succ]
    ring

theorem digitChar_digit (d : Nat) (h : d < 10) :
    (Nat.digitChar d).isDigit = true ∧ (Nat.digitChar d).toNat - 48 = d := by
  interval_cases d <;> exact ⟨rfl, rfl⟩

theorem toDigitsCore_spec (fuel n : Nat) (ds : Str) (hf : n < fuel)
    (hds : ds.all Char.isDigit = true) :
    (Nat.toDigitsCore 10 fuel n ds).all Char.isDigit = true
    ∧ digitsValue 0 (Nat.toDigitsCore 10 fuel n ds) = n * 10 ^ ds.length + digitsValue 0 ds
    ∧ Nat.toDigitsCore 10 fuel n ds ≠ [] := by
  induction fuel generalizing n ds with
  | zero => omega
  | succ fuel ih =>
    have hd := digitChar_digit (n % 10) (Nat.mod_lt n (by decide))
    have hds2 : (Nat.digitChar (n % 10) :: ds).all Char.isDigit = true := by
      simp only [List.all_cons, hd.1, hds, Bool.and_self]
    have hval : digitsValue 0 (Nat.digitChar (n % 10) :: ds)
        = (n % 10) * 10 ^ ds.length + digitsValue 0 ds := by
      have e : digitsValue 0 (Nat.digitChar (n % 10) :: ds)
          = digitsValue (10 * 0 + ((Nat.digitChar (n % 10)).toNat - 48)) ds := rfl
      rw [e, hd.2, digitsValue_shift]
      simp
    unfold Nat.toDigitsCore
    by_cases h0 : n / 10 = 0
    · simp only [h0, if_true]
      refine ⟨hds2, ?_, by simp⟩
      rw [hval]
      have : n % 10 = n := by omega
      rw [this]
    · simp only [h0, if_false]
      have hlt : n / 10 < fuel := by omega
      obtain ⟨a, b, c⟩ := ih (n / 10) (Nat.digitChar (n % 10) :: ds) hlt hds2
      refine ⟨a, ?_, c⟩
      rw [b, hval]
      simp only [List.length_cons, pow_succ]
      have hn := Nat.div_add_mod n 10
      generalize n / 10 = q at hn ⊢
      generalize n % 10 = r at hn ⊢
      rw [← hn]
      ring

theorem toDigits_spec (n : Nat) :
    (Nat.toDigits 10 n).all Char.isDigit = true
    ∧ digitsValue 0 (Nat.toDigits 10 n) = n
    ∧ Nat.toDigits 10 n ≠ [] := by
  have h := toDigitsCore_spec (n + 1) n [] (Nat.lt_succ_self n) rfl
  unfold Nat.toDigits
  refine ⟨h.1, ?_, h.2.2⟩
  rw [h.2.1]
  simp [digitsValue]

theorem isDigit_range (c : Char) (h : c.isDigit = true) : 48 ≤ c.toNat ∧ c.toNat ≤ 57 := by
  unfold Char.isDigit at h
  simp only [Bool.and_eq_true, decide_eq_true_eq, ge_iff_le] at h
  have h1 : (48 : UInt32).toNat ≤ c.val.toNat := h.1
  have h2 : c.val.toNat ≤ (57 : UInt32).toNat := h.2
  exact ⟨h1, h2⟩

theorem ne_of_toNat_ne (c d : Char) (h : c.toNat ≠ d.toNat) : c ≠ d := by
  intro e
  exact h (e ▸ rfl)

theorem isspace_false_of_toNat (c : Char) (h1 : c.toNat ≠ 32) (h2 : ¬ (9 ≤ c.toNat ∧ c.toNat ≤ 13)) :
    isspace c = false := by
  unfold isspace
  have hne : c ≠ ' ' := ne_of_toNat_ne c ' ' h1
  simp only [Bool.or_eq_false_iff, beq_eq_false_iff_ne, ne_eq, hne, not_false_eq_true,
    Bool.and_eq_false_imp, decide_eq_true_eq, decide_eq_false_iff_not, true_and]
  omega

theorem takeWhile_all (p : Char → Bool) (l : Str) (h : l.all p = true) : l.takeWhile p = l := by
  induction l with
  | nil => rfl
  | cons x xs ih =>
    simp only [List.all_cons, Bool.and_eq_true] at h
    rw [List.takeWhile_cons, h.1, ih h.2]
    rfl

theorem stoi_digits (l : Str) (hne : l ≠ []) (hall : l.all Char.isDigit = true)
    (hmax : digitsValue 0 l ≤ 2147483647) : stoi l = some (digitsValue 0 l : Int) := by
  cases l with
  | nil => exact absurd rfl hne
  | cons c cs =>
    have hc : c.isDigit = true := by
      simp only [List.all_cons, Bool.and_eq_true] at hall
      exact hall.1
    have hr := isDigit_range c hc
    have hsp : isspace c = false := isspace_false_of_toNat c (by omega) (by omega)
    have hm : c ≠ '-' := ne_of_toNat_ne c '-' (by
      have : ('-' : Char).toNat = 45 := rfl
      omega)
    have hp : c ≠ '+' := ne_of_toNat_ne c '+' (by
      have : ('+' : Char).toNat = 43 := rfl
      omega)
    have htw := takeWhile_all Char.isDigit (c :: cs) hall
    have hsign : (some c == some '+') = false := by
      simp [hp]
    have hneg : (some c == some '-') = false := by
      simp [hm]
    unfold stoi
    simp only [List.dropWhile_cons, hsp, Bool.false_eq_true, if_false, List.head?_cons,
      hsign, hneg, Bool.or_self, htw, List.isEmpty_cons]
    have h1 : ¬ ((digitsValue 0 (c :: cs) : Int) < -2147483648
        ∨ 2147483647 < (digitsValue 0 (c :: cs) : Int)) := by omega
    simp only [h1, if_false]

theorem stoi_minus_digits (l : Str) (hne : l ≠ []) (hall : l.all Char.isDigit = true)
    (hmax : digitsValue 0 l ≤ 2147483648) :
    stoi ('-' :: l) = some (-(digitsValue 0 l : Int)) := by
  have hsp : isspace '-' = false := by decide
  have htw := takeWhile_all Char.isDigit l hall
  have hemp : l.isEmpty = false := by
    cases l with
    | nil => exact absurd rfl hne
    | cons c cs => rfl
  have hneg : (some '-' == some '-') = true := by decide
  unfold stoi
  simp only [List.dropWhile_cons, hsp, Bool.false_eq_true, if_false, List.head?_cons,
    hneg, Bool.true_or, if_true, List.drop_succ_cons, List.drop_zero, htw, hemp]
  have h1 : ¬ (-(digitsValue 0 l : Int) < -2147483648
      ∨ 2147483647 < -(digitsValue 0 l : Int)) := by omega
  simp only [h1, if_false]

theorem stoi_showInt (v : Int) (h1 : -2147483648 ≤ v) (h2 : v ≤ 2147483647) :
    stoi (showInt v) = some v := by
  obtain ⟨hall, hval, hne⟩ := toDigits_spec v.natAbs
  unfold showInt
  by_cases hneg : v < 0
  · rw [if_pos hneg, stoi_minus_digits _ hne hall (by rw [hval]; omega), hval]
    congr 1
    omega
  · rw [if_neg hneg, stoi_digits _ hne hall (by rw [hval]; omega), hval]
    congr 1
    omega

theorem showInt_chars (v : Int) (c : Char) (hc : c ∈ showInt v) :
    c = '-' ∨ c.isDigit = true := by
  obtain ⟨hall, _, _⟩ := toDigits_spec v.natAbs
  rw [List.all_eq_true] at hall
  unfold showInt at hc
  split at hc
  · rcases List.mem_cons.mp hc with h | h
    · exact Or.inl h
    · exact Or.inr (hall c h)
  · exact Or.inr (hall c hc)

theorem matchEntryValue_entry (digits tail : Str) (hq : '"' ∉ digits) :
    matchEntryValue ('=' :: '"' :: (digits ++ '"' :: ' ' :: tail))
      = some (digits, ' ' :: tail) := by
  have hall : ∀ c ∈ digits, (fun x : Char => x != '"') c = true := by
    intro c hc
    simp only [bne_iff_ne, ne_eq]
    intro h
    exact hq (h ▸ hc)
  have h1 := takeWhile_stop (fun x : Char => x != '"') digits '"' (' ' :: tail) hall (by simp)
  have h2 := dropWhile_stop (fun x : Char => x != '"') digits '"' (' ' :: tail) hall (by simp)
  have hs1 : isspace '=' = false := by decide
  have hs2 : isspace '"' = false := by decide
  unfold matchEntryValue
  simp only [List.dropWhile_cons, hs1, hs2, Bool.false_eq_true, if_false, ne_eq,
    not_true_eq_false, h1, h2]

theorem matchEntry_entry (k : Str) (v : Int) (tail : Str) (hk : SafeKey k) :
    matchEntry (entryText (k, v) ++ tail) = some (k, showInt v, ' ' :: tail) := by
  obtain ⟨hhead, hbr, _⟩ := hk
  have hq : '"' ∉ showInt v := by
    intro h
    rcases showInt_chars v '"' h with h | h
    · exact absurd h (by decide)
    · exact absurd h (by decide)
  have htext : entryText (k, v) ++ tail
      = '[' :: (k ++ ']' :: '=' :: '"' :: (showInt v ++ '"' :: ' ' :: tail)) := by
    simp [entryText]
  have hall : ∀ c ∈ k, (fun x : Char => x != ']') c = true := by
    intro c hc
    simp only [bne_iff_ne, ne_eq]
    intro h
    exact hbr (h ▸ hc)
  have h1 := takeWhile_stop (fun x : Char => x != ']') k ']'
    ('=' :: '"' :: (showInt v ++ '"' :: ' ' :: tail)) hall (by simp)
  have h2 := dropWhile_stop (fun x : Char => x != ']') k ']'
    ('=' :: '"' :: (showInt v ++ '"' :: ' ' :: tail)) hall (by simp)
  cases k with
  | nil => simp at hhead
  | cons c cs =>
    have hsp : isspace c = false := by simpa using hhead
    have hw1 : ∀ x : Str, List.takeWhile isspace (c :: x) = [] := by
      intro x
      rw [List.takeWhile_cons, hsp]
      rfl
    have hw2 : ∀ x : Str, List.dropWhile isspace (c :: x) = c :: x := by
      intro x
      rw [List.dropWhile_cons, hsp]
      rfl
    rw [htext]
    unfold matchEntry
    simp only [ne_eq, not_true_eq_false, if_false, List.cons_append, hw1, hw2]
    simp only [List.cons_append] at h1 h2
    simp only [h1, h2, List.isEmpty_cons, Bool.false_eq_true, if_false,
      matchEntryValue_entry _ _ hq]

theorem searchEntries_entries (rest acc : Map Int) (n : Nat)
    (hn : ((rest.map entryText).flatten).length ≤ n)
    (hsorted : (acc ++ rest).Pairwise (fun a b => strLt a.1 b.1 = true))
    (hsafe : ∀ e ∈ rest, SafeKey e.1 ∧ -2147483648 ≤ e.2 ∧ e.2 ≤ 2147483647) :
    searchEntries n (rest.map entryText).flatten acc = .ok (acc ++ rest) := by
  induction rest generalizing acc n with
  | nil =>
    simp only [List.map_nil, List.flatten_nil, List.append_nil]
    cases n <;> rfl
  | cons e rest ih =>
    obtain ⟨k, v⟩ := e
    obtain ⟨hk, hv1, hv2⟩ := hsafe (k, v) (by simp)
    have hm := matchEntry_entry k v (rest.map entryText).flatten hk
    have hlen : (entryText (k, v) ++ (rest.map entryText).flatten).length
        = k.length + (showInt v).length + ((rest.map entryText).flatten).length + 6 := by
      simp [entryText]
      omega
    simp only [List.map_cons, List.flatten_cons] at hn ⊢
    rw [hlen] at hn
    have hlt : ∀ a ∈ acc, strLt a.1 k = true := by
      intro a ha
      exact (List.pairwise_append.mp hsorted).2.2 a ha (k, v) (by simp)
    have hsorted2 : ((acc ++ [(k, v)]) ++ rest).Pairwise (fun a b => strLt a.1 b.1 = true) := by
      rw [List.append_assoc]
      exact hsorted
    obtain ⟨n1, rfl⟩ : ∃ n1, n = n1 + 1 := ⟨n - 1, by omega⟩
    obtain ⟨n2, rfl⟩ : ∃ n2, n1 = n2 + 1 := ⟨n1 - 1, by omega⟩
    have hct : entryText (k, v) ++ (rest.map entryText).flatten
        = '[' :: (k ++ ']' :: '=' :: '"' :: (showInt v ++ '"' :: ' '
            :: (rest.map entryText).flatten)) := by
      simp [entryText]
    rw [hct] at hm ⊢
    rw [searchEntries, hm]
    simp only [stoi_showInt v hv1 hv2]
    have hnone : matchEntry (' ' :: (rest.map entryText).flatten) = none := by
      simp [matchEntry]
    rw [searchEntries, hnone]
    simp only
    rw [assign_append acc k v hlt]
    rw [ih (acc ++ [(k, v)]) n2 (by omega) hsorted2 (fun e he => hsafe e (by simp [he]))]
    simp

theorem getlines_single (l cur : Str) (h : '\n' ∉ l) (hne : cur ++ l ≠ []) :
    getlines l cur = [cur ++ l] := by
  induction l generalizing cur with
  | nil =>
    simp only [List.append_nil] at hne ⊢
    simp [getlines, hne]
  | cons c cs ih =>
    have hc : c ≠ '\n' := by
      intro e
      exact h (e ▸ List.mem_cons_self _ _)
    have hcs : '\n' ∉ cs := fun hm => h (List.mem_cons_of_mem _ hm)
    rw [getlines, if_neg hc, ih (cur ++ [c]) hcs (by simp)]
    simp

theorem dropTrailing_keep (p : Char → Bool) (l : Str) (y : Char) (hy : p y = false) :
    dropTrailing p (l ++ [y]) = l ++ [y] := by
  induction l with
  | nil => simp [dropTrailing, hy]
  | cons x xs ih =>
    rw [List.cons_append, dropTrailing, ih]
    cases xs <;> rfl

theorem dropTrailing_drop (p : Char → Bool) (l : Str) (c : Char) (hc : p c = true) :
    dropTrailing p (l ++ [c]) = dropTrailing p l := by
  induction l with
  | nil => simp [dropTrailing, hc]
  | cons x xs ih => rw [List.cons_append, dropTrailing, ih, dropTrailing]

theorem entries_shape (m : Map Int) :
    (m.map entryText).flatten = []
    ∨ ∃ body, (m.map entryText).flatten = '[' :: (body ++ [' ']) := by
  induction m with
  | nil => exact Or.inl rfl
  | cons e es ih =>
    right
    rcases ih with h | ⟨body, h⟩
    · refine ⟨e.1 ++ [']', '=', '"'] ++ showInt e.2 ++ ['"'], ?_⟩
      simp [h, entryText]
    · refine ⟨e.1 ++ [']', '=', '"'] ++ showInt e.2 ++ ['"', ' '] ++ '[' :: body, ?_⟩
      simp [h, entryText]

theorem cacheLine_cacheText (m : Map Int)
    (hsorted : m.Pairwise (fun a b => strLt a.1 b.1 = true))
    (hsafe : ∀ e ∈ m, SafeKey e.1 ∧ -2147483648 ≤ e.2 ∧ e.2 ≤ 2147483647) :
    cacheLine [] (cacheText m) = .ok m := by
  have hpre : cacheText m
      = "declare -A cache=".toList ++ ('(' :: ((m.map entryText).flatten ++ [')'])) := by
    simp [cacheText]
  have hstart : startsWith "declare -A cache=".toList (cacheText m) = true := by
    rw [hpre]
    simp [startsWith]
  have hdrop : (cacheText m).drop "declare -A cache=".toList.length
      = '(' :: ((m.map entryText).flatten ++ [')']) := by
    rw [hpre]
    exact List.drop_left' rfl
  have hparen : ('(' :: ((m.map entryText).flatten ++ [')'])).dropWhile (fun c => c == '(')
      = (m.map entryText).flatten ++ [')'] := by
    rw [List.dropWhile_cons]
    simp only [beq_self_eq_true, if_true]
    rcases entries_shape m with h | ⟨body, h⟩
    · rw [h]; rfl
    · rw [h]; rfl
  have htrail : dropTrailing (fun c => c == ')') ((m.map entryText).flatten ++ [')'])
      = (m.map entryText).flatten := by
    rw [dropTrailing_drop _ _ _ (by simp)]
    rcases entries_shape m with h | ⟨body, h⟩
    · rw [h]; rfl
    · rw [h]
      have e : '[' :: (body ++ [' ']) = ('[' :: body) ++ [' '] := rfl
      rw [e]
      exact dropTrailing_keep _ _ _ (by decide)
  unfold cacheLine
  simp only [hstart, if_true, hdrop, hparen, htrail]
  have h := searchEntries_entries m [] _ (Nat.le_refl _) (by simpa using hsorted) hsafe
  simpa using h

/-- For a map whose keys are safe and whose values are `int`s, readCache gives back the map
    from the text writeCache writes for it. -/
theorem readCache_cacheText (m : Map Int)
    (hsorted : m.Pairwise (fun a b => strLt a.1 b.1 = true))
    (hsafe : ∀ e ∈ m, SafeKey e.1 ∧ -2147483648 ≤ e.2 ∧ e.2 ≤ 2147483647) :
    readCache (cacheText m) = .ok m := by
  have hnl : '\n' ∉ cacheText m := by
    intro hm
    unfold cacheText at hm
    simp only [List.mem_append, List.mem_flatten, List.mem_map, List.mem_singleton] at hm
    rcases hm with (hm | ⟨l, ⟨e, he, rfl⟩, hc⟩) | hm
    · revert hm; decide
    · unfold entryText at hc
      simp only [List.mem_append, List.mem_singleton, List.mem_cons] at hc
      rcases hc with (((hc | hc) | hc) | hc) | hc
      · exact absurd hc (by decide)
      · exact (hsafe e he).1.2.2 hc
      · revert hc; simp
      · rcases showInt_chars e.2 '\n' hc with h | h
        · exact absurd h (by decide)
        · exact absurd h (by decide)
      · revert hc; simp
    · exact absurd hm (by decide)
  have hne : cacheText m ≠ [] := by
    unfold cacheText
    simp
  have hl := getlines_single (cacheText m) [] hnl (by simpa using hne)
  unfold readCache
  rw [hl]
  have hemp : (cacheText m).isEmpty = false := by
    cases h : cacheText m with
    | nil => exact absurd h hne
    | cons c cs => rfl
  simp only [List.nil_append, List.filter_cons, hemp, Bool.not_false, if_true, List.filter_nil,
    cacheLines, cacheLine_cacheText m hsorted hsafe]

/-! ### The cache across runs -/

theorem evaluate_cache (w : World) (key : Str) (tests : List Str) (a q : Bool) :
    (evaluate w [] key tests a q).world.cache = w.cache
    ∨ ∃ code, (evaluate w [] key tests a q).world.cache
        = some (w.now, cacheText [(key, code)]) := by
  unfold evaluate
  cases getAllData w.src with
  | error e => exact Or.inl rfl
  | ok data =>
    dsimp only
    cases testLoop data a tests true with
    | error e => exact Or.inl rfl
    | ok r =>
      cases r with
      | notFound => exact Or.inl rfl
      | done fail =>
        cases hw : w.writable with
        | false =>
          left
          cases fail <;> simp [EXIT_SUCCESS, EXIT_FAIL, writeCache, hw]
        | true =>
          right
          cases fail
          · exact ⟨0, by simp [EXIT_SUCCESS, EXIT_FAIL, writeCache, hw, Map.assign]⟩
          · exact ⟨3, by simp [EXIT_SUCCESS, EXIT_FAIL, writeCache, hw, Map.assign]⟩

theorem foldl_newer_spec (ms : List Int) (r : Int) :
    r ≤ ms.foldl (fun r m => if m > r then m else r) r
    ∧ (∀ m ∈ ms, m ≤ ms.foldl (fun r m => if m > r then m else r) r)
    ∧ (ms.foldl (fun r m => if m > r then m else r) r = r
        ∨ ms.foldl (fun r m => if m > r then m else r) r ∈ ms) := by
  induction ms generalizing r with
  | nil => simp
  | cons m ms ih =>
    rw [List.foldl_cons]
    obtain ⟨h1, h2, h3⟩ := ih (if m > r then m else r)
    have hr : r ≤ (if m > r then m else r) := by
      split <;> omega
    have hm : m ≤ (if m > r then m else r) := by
      split <;> omega
    refine ⟨le_trans hr h1, ?_, ?_⟩
    · intro x hx
      rcases List.mem_cons.mp hx with rfl | hx
      · exact le_trans hm h1
      · exact h2 x hx
    · rcases h3 with h3 | h3
      · by_cases hm : m > r
        · right
          rw [h3, if_pos hm]
          exact List.mem_cons_self _ _
        · left
          rw [h3, if_neg hm]
      · exact Or.inr (List.mem_cons_of_mem _ h3)

theorem foldr_max_spec (ms : List Int) (r : Int) :
    r ≤ ms.foldr max r
    ∧ (∀ m ∈ ms, m ≤ ms.foldr max r)
    ∧ (ms.foldr max r = r ∨ ms.foldr max r ∈ ms) := by
  induction ms with
  | nil => simp
  | cons m ms ih =>
    obtain ⟨h1, h2, h3⟩ := ih
    rw [List.foldr_cons]
    refine ⟨le_trans h1 (le_max_right _ _), ?_, ?_⟩
    · intro x hx
      rcases List.mem_cons.mp hx with rfl | hx
      · exact le_max_left _ _
      · exact le_trans (h2 x hx) (le_max_right _ _)
    · rcases le_total m (ms.foldr max r) with hle | hle
      · rw [max_eq_right hle]
        rcases h3 with h3 | h3
        · exact Or.inl h3
        · exact Or.inr (List.mem_cons_of_mem _ h3)
      · rw [max_eq_left hle]
        exact Or.inr (List.mem_cons_self _ _)

theorem getMaxMtime_fold (src : Sources) :
    getMaxMtime src = (sourceMtimes src).foldl (fun r m => if m > r then m else r) 0 := by
  unfold getMaxMtime sourceMtimes
  cases src.ordata with
  | none => rfl
  | some entries =>
    simp only [List.foldl_cons, List.foldl_map]

theorem getMaxMtime_upper (src : Sources) :
    0 ≤ getMaxMtime src ∧ ∀ t ∈ sourceMtimes src, t ≤ getMaxMtime src := by
  rw [getMaxMtime_fold]
  exact ⟨(foldl_newer_spec _ 0).1, (foldl_newer_spec _ 0).2.1⟩

theorem getMaxMtime_attained (src : Sources) :
    getMaxMtime src = 0 ∨ getMaxMtime src ∈ sourceMtimes src := by
  rw [getMaxMtime_fold]
  exact (foldl_newer_spec _ 0).2.2

theorem getMaxMtime_eq (src : Sources) : getMaxMtime src = maxSourceMtime src := by
  obtain ⟨a1, a2⟩ := getMaxMtime_upper src
  have a3 := getMaxMtime_attained src
  obtain ⟨b1, b2, b3⟩ := foldr_max_spec (sourceMtimes src) 0
  unfold maxSourceMtime
  apply le_antisymm
  · rcases a3 with h | h
    · rw [h]
      exact b1
    · exact b2 _ h
  · rcases b3 with h | h
    · rw [h]
      exact a1
    · exact a2 _ h

theorem mem_sourceMtimes (src : Sources) (t : Int) :
    t ∈ sourceMtimes src ↔
      t = src.ordataMtime ∨ t = src.osReleaseMtime
      ∨ ∃ entries e, src.ordata = some entries ∧ e ∈ entries ∧ hidden e = false
          ∧ t = e.mtime := by
  unfold sourceMtimes
  cases h : src.ordata with
  | none => simp
  | some entries =>
    simp only [List.mem_cons, List.mem_map, List.mem_filter, Option.some.injEq,
      Bool.not_eq_true']
    constructor
    · rintro (h1 | h1 | ⟨e, ⟨he, hh⟩, rfl⟩)
      · exact Or.inl h1
      · exact Or.inr (Or.inl h1)
      · exact Or.inr (Or.inr ⟨entries, e, rfl, he, hh, rfl⟩)
    · rintro (h1 | h1 | ⟨es, e, hes, he, hh, rfl⟩)
      · exact Or.inl h1
      · exact Or.inr (Or.inl h1)
      · cases hes
        exact Or.inr (Or.inr ⟨e, ⟨he, hh⟩, rfl⟩)

theorem getMaxMtime_entry (src : Sources) (entries : List DirEntry) (e : DirEntry)
    (h : src.ordata = some entries) (he : e ∈ entries) (hh : hidden e = false) :
    e.mtime ≤ getMaxMtime src :=
  (getMaxMtime_upper src).2 _
    ((mem_sourceMtimes src _).mpr (Or.inr (Or.inr ⟨entries, e, h, he, hh, rfl⟩)))

/-- C7: the freshness timestamp getMaxMtime computes is the maximum of the source
    modification times: it is at least the time of the directory, the time of the flat file
    and the time of every non-hidden entry of the directory, and it is one of these times or
    0.  When the time of the cache file is strictly less than this maximum, runTests uses
    nothing of the cache: the whole run is the run of a machine without cache file, its
    outcome is the direct evaluation of the query on the current sources, and afterwards
    there is no cache file or one that holds the entry of this query and nothing else. -/
theorem stale_cache_unused (w : World) (mtime : Int) (content : Str) (tests : List Str)
    (_and _or quiet : Bool)
    (hc : w.cache = some (mtime, content)) (hst : mtime < maxSourceMtime w.src) :
    getMaxMtime w.src = maxSourceMtime w.src
    ∧ w.src.ordataMtime ≤ getMaxMtime w.src
    ∧ w.src.osReleaseMtime ≤ getMaxMtime w.src
    ∧ (∀ entries e, w.src.ordata = some entries → e ∈ entries → hidden e = false →
        e.mtime ≤ getMaxMtime w.src)
    ∧ (getMaxMtime w.src = 0 ∨ getMaxMtime w.src = w.src.ordataMtime
        ∨ getMaxMtime w.src = w.src.osReleaseMtime
        ∨ ∃ entries e, w.src.ordata = some entries ∧ e ∈ entries ∧ hidden e = false
            ∧ getMaxMtime w.src = e.mtime)
    ∧ runTests w tests _and _or quiet = runTests { w with cache := none } tests _and _or quiet
    ∧ (runTests w tests _and _or quiet).code = evalDirect w.src tests _and
    ∧ ((runTests w tests _and _or quiet).world.cache = none
      ∨ ∃ code, (runTests w tests _and _or quiet).world.cache
          = some (w.now, cacheText [(cachedKey tests _and _or, code)])) := by
  have hst2 : mtime < getMaxMtime w.src := by
    rw [getMaxMtime_eq]
    exact hst
  have h1 : runTests w tests _and _or quiet
      = evaluate { w with cache := none } [] (cachedKey tests _and _or) tests _and quiet := by
    unfold runTests
    simp only [hc, hst2, if_true]
  refine ⟨getMaxMtime_eq w.src, ?_, ?_, ?_, ?_, ?_, ?_, ?_⟩
  · exact (getMaxMtime_upper w.src).2 _ ((mem_sourceMtimes _ _).mpr (Or.inl rfl))
  · exact (getMaxMtime_upper w.src).2 _ ((mem_sourceMtimes _ _).mpr (Or.inr (Or.inl rfl)))
  · intro entries e h he hh
    exact getMaxMtime_entry w.src entries e h he hh
  · rcases getMaxMtime_attained w.src with h | h
    · exact Or.inl h
    · exact Or.inr ((mem_sourceMtimes _ _).mp h)
  · rw [h1]
    unfold runTests
    rfl
  · rw [h1, evaluate_code]
  · rw [h1]
    exact evaluate_cache { w with cache := none } _ tests _and quiet

/-- An instance of C7: the cache file (time 20) records PASS for is-dev-true and is newer
    than the directory and the flat file, but the file base was touched at time 30, so the
    freshness timestamp is 30 (the newer hidden file does not count); the run does not serve
    the cached PASS: it evaluates the query to FAIL and leaves a cache file with that one
    entry. -/
theorem stale_cache_unused_witness :
    getMaxMtime touchedWorld.src = 30
    ∧ (runTests touchedWorld ["is-dev-true".toList] false false false).code = .ok EXIT_FAIL
    ∧ (runTests touchedWorld ["is-dev-true".toList] false false false).world.cache
      = some (60, cacheText [("00is-dev-true".toList, 3)]) := by
  have h := stale_cache_unused touchedWorld 20 (cacheText [("00is-dev-true".toList, 0)])
    ["is-dev-true".toList] false false false rfl (by decide)
  exact ⟨h.1.trans (by decide), h.2.2.2.2.2.2.1.trans (by decide), by decide⟩

/-- C6: the code returns a cached outcome that differs from direct evaluation.  From no
    cache, the query OR [is-dev-false, is-custom-x] is evaluated to PASS and stored; the
    next query, the single predicate "is-dev-false is-custom-x", has the same cache key, so
    runTests returns the stored PASS although evaluating it on the table gives FAIL. -/
theorem cache_answers_other_query :
    parseArgs ["is-dev-false".toList, "is-custom-x".toList] [] []
      = .ok ([], ["is-dev-false".toList, "is-custom-x".toList])
    ∧ parseArgs ["is-dev-false is-custom-x".toList] [] []
      = .ok ([], ["is-dev-false is-custom-x".toList])
    ∧ (runTests demoWorld ["is-dev-false".toList, "is-custom-x".toList] false false false).code
      = .ok EXIT_SUCCESS
    ∧ (runTests demoWorld ["is-dev-false".toList, "is-custom-x".toList] false false false).world.src
      = demoWorld.src
    ∧ (runTests
        (runTests demoWorld ["is-dev-false".toList, "is-custom-x".toList] false false false).world
        ["is-dev-false is-custom-x".toList] false false false).code = .ok EXIT_SUCCESS
    ∧ evalDirect demoWorld.src ["is-dev-false is-custom-x".toList] false = .ok EXIT_FAIL := by
  decide

/-- C8: the second of two runs in a row does not return what the first returned.  The
    query is-dev-"a] [g]=" is accepted by parseArgs and evaluated to FAIL; the cache file the
    first run writes holds the text [g]="]=" inside its key, readCache takes it for an entry
    and stoi throws on its value, so the second run ends with an uncaught exception. -/
theorem second_run_aborts :
    parseArgs [bracketArg] [] [] = .ok ([], [bracketArg])
    ∧ (runTests demoWorld [bracketArg] false false false).code = .ok EXIT_FAIL
    ∧ (runTests demoWorld [bracketArg] false false false).world.src = demoWorld.src
    ∧ (runTests (runTests demoWorld [bracketArg] false false false).world
        [bracketArg] false false false).code = .error .uncaught := by
  decide

/-- C9: a map with a canonical key is not read back.  The predicate is-dev-a]b is accepted
    by parseArgs; the text writeCache writes for the map that sends its cache key to FAIL is
    read by readCache as the empty map. -/
theorem cacheText_not_read_back :
    parseArgs ["is-dev-a]b".toList] [] [] = .ok ([], ["is-dev-a]b".toList])
    ∧ cachedKey ["is-dev-a]b".toList] false false = "00is-dev-a]b".toList
    ∧ readCache (cacheText [("00is-dev-a]b".toList, EXIT_FAIL)]) = .ok [] := by
  decide

/-- C10: readCache fails on a hand-edited cache file with an entry whose quoted value is
    not an integer: stoi throws and nothing catches the exception, also when the other
    entries are well-formed. -/
theorem readCache_aborts :
    readCache ("declare -A cache=([00is-dev-false]=".toList ++ ['"', '0', '"']
        ++ " [00is-dev-true]=".toList ++ ['"', 'n', 'o', '"'] ++ " )".toList)
      = .error .uncaught := by
  decide

/-! ### The attribute table -/

theorem find_assign {V : Type} (m : Map V) (k q : Str) (v : V) :
    (m.assign k v).find q = if k = q then some v else m.find q := by
  induction m with
  | nil => rfl
  | cons e es ih =>
    obtain ⟨k1, v1⟩ := e
    unfold Map.assign
    by_cases h1 : k = k1
    · subst h1
      simp only [if_true, Map.find]
      by_cases h2 : k = q <;> simp [h2]
    · simp only [h1, if_false]
      by_cases h2 : strLt k k1 = true
      · simp only [h2, if_true, Map.find]
      · simp only [h2, Bool.false_eq_true, if_false, Map.find, ih]
        by_cases h3 : k1 = q
        · have h4 : k ≠ q := fun h => h1 (h.trans h3.symm)
          simp [h3, h4]
        · simp [h3]

theorem find_insertNew {V : Type} (m : Map V) (k q : Str) (v : V) :
    (m.insertNew k v).find q
      = match m.find q with
        | some x => some x
        | none => if k = q then some v else none := by
  unfold Map.insertNew
  cases hk : m.find k with
  | some x =>
    simp only
    cases hq : m.find q with
    | some y => rfl
    | none =>
      have : k ≠ q := by
        intro h
        rw [h, hq] at hk
        exact absurd hk (by simp)
      simp [this]
  | none =>
    simp only [find_assign]
    by_cases h : k = q
    · subst h
      simp [hk]
    · simp only [h, if_false]
      cases m.find q <;> rfl

theorem find_foldl_insertNew (F D : Map Str) (q : Str) :
    (F.foldl (fun d kv => d.insertNew kv.1 kv.2) D).find q
      = match D.find q with
        | some x => some x
        | none => F.find q := by
  induction F generalizing D with
  | nil =>
    simp only [List.foldl_nil, Map.find]
    cases D.find q <;> rfl
  | cons e es ih =>
    obtain ⟨k, v⟩ := e
    rw [List.foldl_cons, ih, find_insertNew]
    simp only [Map.find]
    cases D.find q with
    | some x => rfl
    | none =>
      by_cases h : k = q <;> simp [h]

theorem find_mergeData (D F : Map Str) (q : Str) :
    (mergeData D F).find q
      = match D.find q with
        | some x => some x
        | none =>
          match F.find q with
          | some x => some x
          | none =>
            if q = "custom".toList then some "none".toList
            else if q = "dev".toList then some "false".toList
            else none := by
  have hne : "custom".toList ≠ "dev".toList := by decide
  unfold mergeData
  simp only
  generalize hM : F.foldl (fun d kv => d.insertNew kv.1 kv.2) D = M
  have hM2 : M.find q = match D.find q with
      | some x => some x
      | none => F.find q := by
    rw [← hM]
    exact find_foldl_insertNew F D q
  have hstep : ∀ (N : Map Str) (k d : Str),
      (if N.find k = none then N.assign k d else N).find q
        = match N.find q with
          | some x => some x
          | none => if q = k then some d else none := by
    intro N k d
    by_cases hk : N.find k = none
    · simp only [hk, if_true, find_assign]
      by_cases hq : k = q
      · subst hq
        simp [hk]
      · have hq2 : q ≠ k := fun h => hq h.symm
        simp only [hq, hq2, if_false]
        cases N.find q <;> rfl
    · simp only [hk, if_false]
      cases hq : N.find q with
      | some x => rfl
      | none =>
        have : q ≠ k := by
          intro h
          rw [h] at hq
          exact hk hq
        simp [this]
  rw [hstep, hstep, hM2]
  cases D.find q with
  | some x => rfl
  | none =>
    cases F.find q with
    | some x => rfl
    | none =>
      by_cases h1 : q = "custom".toList
      · rw [if_pos h1, if_pos h1]
      · rw [if_neg h1, if_neg h1]

theorem getAllData_eq (src : Sources) (D F : Map Str) (iD iF : Bool)
    (hD : processOrdata src = .ok (D, iD)) (hF : processOSRelease src = .ok (F, iF)) :
    getAllData src = .ok (mergeData D F) := by
  unfold getAllData
  rw [hD, hF]
  rfl

/-- C11, as stated, fails: the directory source and the flat file both define os_id; the
    table built by getAllData gives os_id the value of the directory source (zz), not the
    value of the flat file (debian). -/
theorem flat_file_loses_collision :
    processOrdata collisionSources = .ok ([("os_id".toList, "zz".toList)], false)
    ∧ processOSRelease collisionSources = .ok ([("os_id".toList, "debian".toList)], false)
    ∧ getAllData collisionSources
      = .ok [("custom".toList, "none".toList), ("dev".toList, "false".toList),
             ("os_id".toList, "zz".toList)] := by
  decide

/-- C11 (amended): for every directory-source mapping D and flat-file mapping F, the table
    built by getAllData gives every key of D the value D assigns to it, also when F holds
    the same key (the directory source wins a collision), and gives every key found only in
    F the value F assigns to it. -/
theorem mergeData_precedence (D F : Map Str) :
    (∀ (src : Sources) (iD iF : Bool), processOrdata src = .ok (D, iD) →
      processOSRelease src = .ok (F, iF) → getAllData src = .ok (mergeData D F))
    ∧ (∀ k v, D.find k = some v → (mergeData D F).find k = some v)
    ∧ (∀ k v, D.find k = none → F.find k = some v → (mergeData D F).find k = some v) := by
  refine ⟨fun src iD iF hD hF => getAllData_eq src D F iD iF hD hF, ?_, ?_⟩
  · intro k v hk
    rw [find_mergeData, hk]
  · intro k v hk hf
    rw [find_mergeData, hk, hf]

/-- An instance of C11 (amended): on the collision of os_id the value zz of the directory
    source is in the table. -/
theorem mergeData_precedence_witness :
    getAllData collisionSources
      = .ok (mergeData [("os_id".toList, "zz".toList)] [("os_id".toList, "debian".toList)])
    ∧ (mergeData [("os_id".toList, "zz".toList)] [("os_id".toList, "debian".toList)]).find
        "os_id".toList = some "zz".toList :=
  ⟨(mergeData_precedence [("os_id".toList, "zz".toList)]
      [("os_id".toList, "debian".toList)]).1 collisionSources false false
      (by decide) (by decide),
   (mergeData_precedence [("os_id".toList, "zz".toList)]
      [("os_id".toList, "debian".toList)]).2.1 "os_id".toList "zz".toList (by decide)⟩

/-- C12: for every pair of source mappings D and F the table built by getAllData contains
    custom and dev; a value that D or F supplies for a key is kept (for custom and dev too,
    never replaced by the default); when neither supplies custom its value is "none", when
    neither supplies dev its value is "false"; and every other key is in the table exactly
    when a source supplies it. -/
theorem mergeData_defaults (D F : Map Str) :
    (∀ (src : Sources) (iD iF : Bool), processOrdata src = .ok (D, iD) →
      processOSRelease src = .ok (F, iF) → getAllData src = .ok (mergeData D F))
    ∧ ((mergeData D F).find "custom".toList).isSome = true
    ∧ ((mergeData D F).find "dev".toList).isSome = true
    ∧ (∀ q v, (D.find q = some v ∨ (D.find q = none ∧ F.find q = some v)) →
        (mergeData D F).find q = some v)
    ∧ (D.find "custom".toList = none → F.find "custom".toList = none →
        (mergeData D F).find "custom".toList = some "none".toList)
    ∧ (D.find "dev".toList = none → F.find "dev".toList = none →
        (mergeData D F).find "dev".toList = some "false".toList)
    ∧ (∀ q, q ≠ "custom".toList → q ≠ "dev".toList → D.find q = none → F.find q = none →
        (mergeData D F).find q = none) := by
  refine ⟨fun src iD iF hD hF => getAllData_eq src D F iD iF hD hF, ?_, ?_, ?_, ?_, ?_, ?_⟩
  · rw [find_mergeData]
    cases D.find "custom".toList with
    | some x => rfl
    | none => cases F.find "custom".toList <;> rfl
  · rw [find_mergeData]
    cases D.find "dev".toList with
    | some x => rfl
    | none => cases F.find "dev".toList <;> rfl
  · intro q v h
    rw [find_mergeData]
    rcases h with h | ⟨h1, h2⟩
    · rw [h]
    · rw [h1, h2]
  · intro h1 h2
    rw [find_mergeData, h1, h2]
    rfl
  · intro h1 h2
    rw [find_mergeData, h1, h2]
    rfl
  · intro q h1 h2 h3 h4
    rw [find_mergeData, h3, h4]
    simp only [h1, h2, if_false]

/-- An instance of C12: demoSources supply neither custom nor dev, and the table holds the
    two defaults next to the supplied keys. -/
theorem mergeData_defaults_witness :
    getAllData demoSources
      = .ok (mergeData [("model".toList, "Tablet".toList)] [("os_id".toList, "debian".toList)])
    ∧ (mergeData [("model".toList, "Tablet".toList)] [("os_id".toList, "debian".toList)]).find
        "custom".toList = some "none".toList
    ∧ (mergeData [("model".toList, "Tablet".toList)] [("os_id".toList, "debian".toList)]).find
        "dev".toList = some "false".toList :=
  ⟨(mergeData_defaults [("model".toList, "Tablet".toList)]
      [("os_id".toList, "debian".toList)]).1 demoSources false false (by decide) (by decide),
   (mergeData_defaults [("model".toList, "Tablet".toList)]
      [("os_id".toList, "debian".toList)]).2.2.2.2.1 (by decide) (by decide),
   (mergeData_defaults [("model".toList, "Tablet".toList)]
      [("os_id".toList, "debian".toList)]).2.2.2.2.2.1 (by decide) (by decide)⟩

/-! ### The flat-file reader -/

theorem dropWhile_cases (p : Char → Bool) (l : Str) :
    (l.dropWhile p = [] ∧ ∀ x ∈ l, p x = true)
    ∨ ∃ x r, l.dropWhile p = x :: r ∧ p x = false := by
  induction l with
  | nil => exact Or.inl ⟨rfl, by simp⟩
  | cons a as ih =>
    rw [List.dropWhile_cons]
    by_cases h : p a = true
    · simp only [h, if_true]
      rcases ih with ⟨h1, h2⟩ | h1
      · left
        refine ⟨h1, ?_⟩
        intro x hx
        rcases List.mem_cons.mp hx with rfl | hx
        · exact h
        · exact h2 x hx
      · exact Or.inr h1
    · simp only [h, if_false]
      right
      exact ⟨a, as, rfl, by simpa using h⟩

theorem dropWhile_eq (line : Str) (h : '=' ∈ line) :
    line.dropWhile (fun c => c != '=') = '=' :: afterEq line := by
  unfold afterEq
  rcases dropWhile_cases (fun c => c != '=') line with ⟨_, h2⟩ | ⟨x, r, h1, h2⟩
  · have := h2 '=' h
    simp at this
  · have hx : x = '=' := by simpa using h2
    rw [h1, hx]
    rfl

theorem dropWhile_no_eq (line : Str) (h : '=' ∉ line) :
    line.dropWhile (fun c => c != '=') = [] := by
  rcases dropWhile_cases (fun c => c != '=') line with ⟨h1, _⟩ | ⟨x, r, h1, h2⟩
  · exact h1
  · have hx : x = '=' := by simpa using h2
    have hm : x ∈ line.dropWhile (fun c => c != '=') := by
      rw [h1]
      exact List.mem_cons_self _ _
    have hm2 : x ∈ line := (List.dropWhile_sublist _).subset hm
    exact absurd (hx ▸ hm2) h

theorem stripQuotes_eq (value : Str) :
    (if (!value.isEmpty && value.head? == some '"' && value.getLast? == some '"') = true
      then (value.drop 1).take (value.length - 2) else value) = stripQuotes value := by
  unfold stripQuotes
  cases value with
  | nil => simp
  | cons c cs =>
    have hlen : ((c :: cs).drop 1).take ((c :: cs).length - 2) = ((c :: cs).drop 1).dropLast := by
      rw [List.dropLast_eq_take]
      simp
    rw [hlen]
    by_cases h1 : c = '"'
    · by_cases h2 : (c :: cs).getLast? = some '"'
      · simp [h1, h2]
      · simp [h1, h2]
    · simp [h1]

theorem osReleaseLine_eq (st : Map Str × Bool) (line : Str) (h : '=' ∈ line) :
    osReleaseLine st line
      = (st.1.assign ("os_".toList ++ toLower (beforeEq line)) (stripQuotes (afterEq line)),
         st.2) := by
  unfold osReleaseLine
  rw [dropWhile_eq line h]
  simp only [stripQuotes_eq]
  rfl

theorem osReleaseLine_no_eq (st : Map Str × Bool) (line : Str) (h : '=' ∉ line) :
    osReleaseLine st line = (st.1, true) := by
  unfold osReleaseLine
  rw [dropWhile_no_eq line h]

theorem osRelease_later_lines (post : List Str) (st : Map Str × Bool) (key : Str)
    (h : ∀ l ∈ post, '=' ∈ l → "os_".toList ++ toLower (beforeEq l) ≠ key) :
    (post.foldl osReleaseLine st).1.find key = st.1.find key := by
  induction post generalizing st with
  | nil => rfl
  | cons l ls ih =>
    rw [List.foldl_cons, ih _ (fun x hx => h x (List.mem_cons_of_mem _ hx))]
    by_cases hl : '=' ∈ l
    · rw [osReleaseLine_eq st l hl]
      simp only [find_assign]
      rw [if_neg (h l (List.mem_cons_self _ _) hl)]
    · rw [osReleaseLine_no_eq st l hl]

theorem osRelease_key_stays (post : List Str) (st : Map Str × Bool) (key : Str)
    (h : (st.1.find key).isSome = true) :
    ((post.foldl osReleaseLine st).1.find key).isSome = true := by
  induction post generalizing st with
  | nil => exact h
  | cons l ls ih =>
    rw [List.foldl_cons]
    apply ih
    by_cases hl : '=' ∈ l
    · rw [osReleaseLine_eq st l hl]
      simp only [find_assign]
      split
      · rfl
      · exact h
    · rw [osReleaseLine_no_eq st l hl]
      exact h

/-- C13: for every line of the flat file that contains '=', the mapping returned by
    processOSRelease has the key "os_" + lowercase(text before the first '='), and when no
    later line has that key the value stored there is the text after the first '=', with its
    first and last characters removed if and only if both of them are double quotes. -/
theorem processOSRelease_entry (src : Sources) (content : Str) (pre post : List Str)
    (line : Str)
    (hsrc : src.osRelease = some content)
    (hlines : getlines content [] = pre ++ line :: post)
    (heq : '=' ∈ line) :
    ∃ ret invalid, processOSRelease src = .ok (ret, invalid)
      ∧ (ret.find ("os_".toList ++ toLower (beforeEq line))).isSome = true
      ∧ ((∀ l ∈ post, '=' ∈ l → toLower (beforeEq l) ≠ toLower (beforeEq line)) →
          ret.find ("os_".toList ++ toLower (beforeEq line))
            = some (stripQuotes (afterEq line))) := by
  have hne : line.isEmpty = false := by
    cases line with
    | nil => simp at heq
    | cons c cs => rfl
  refine ⟨_, _, by unfold processOSRelease; rw [hsrc], ?_, ?_⟩
  · unfold parseFile
    rw [hlines, List.filter_append, List.filter_cons]
    simp only [hne, Bool.not_false, if_true, List.foldl_append, List.foldl_cons]
    apply osRelease_key_stays
    rw [osReleaseLine_eq _ line heq, find_assign, if_pos rfl]
    rfl
  · intro hlast
    unfold parseFile
    rw [hlines, List.filter_append, List.filter_cons]
    simp only [hne, Bool.not_false, if_true, List.foldl_append, List.foldl_cons]
    rw [osRelease_later_lines]
    · rw [osReleaseLine_eq _ line heq, find_assign, if_pos rfl]
    · intro l hl hl2 hkey
      exact hlast l (List.mem_filter.mp hl).1 hl2 (List.append_cancel_left hkey)

/-- An instance of C13: two lines define name; the quotes of the later one are removed. -/
theorem processOSRelease_entry_witness :
    ∃ ret invalid,
      processOSRelease
        { demoSources with
          osRelease := some ("Name=x\nID=debian\nNAME=".toList ++ ['"'] ++ "Deb ian".toList
            ++ ['"', '\n']) } = .ok (ret, invalid)
      ∧ ret.find "os_name".toList = some "Deb ian".toList := by
  obtain ⟨ret, invalid, h1, _, h3⟩ := processOSRelease_entry
    { demoSources with
      osRelease := some ("Name=x\nID=debian\nNAME=".toList ++ ['"'] ++ "Deb ian".toList
        ++ ['"', '\n']) }
    ("Name=x\nID=debian\nNAME=".toList ++ ['"'] ++ "Deb ian".toList ++ ['"', '\n'])
    ["Name=x".toList, "ID=debian".toList] []
    ("NAME=".toList ++ ['"'] ++ "Deb ian".toList ++ ['"'])
    rfl (by decide) (by decide)
  exact ⟨ret, invalid, h1, h3 (by simp)⟩

/-! ### The directory reader -/

theorem ordataLine_spec (st : OrdataState) (line : Str) :
    (ordataLine st line).ret
        = (match ordataEntry line with
           | some (k, v) => st.ret.assign k v
           | none => st.ret)
    ∧ (ordataLine st line).found_ordata = (st.found_ordata || (ordataEntry line).isSome) := by
  unfold ordataLine ordataEntry
  cases readToken line with
  | none => simp
  | some tr =>
    obtain ⟨token, rest⟩ := tr
    dsimp only
    by_cases ht : token = "export".toList
    · simp only [ht, ne_eq, not_true_eq_false, if_false]
      cases readToken rest with
      | none => simp
      | some vr =>
        obtain ⟨var, r2⟩ := vr
        dsimp only
        by_cases hp : startsWith ORDATA_PREFIX var = true
        · simp only [hp, Bool.not_true, Bool.false_eq_true, if_false]
          cases var.dropWhile (fun c => c != '=') with
          | nil => simp
          | cons x value => simp
        · simp only [hp, Bool.not_false, if_true]
          simp
    · simp only [ht, ne_eq, not_false_eq_true, if_true]
      simp

theorem ordata_later_lines (ls : List Str) (st : OrdataState) (key : Str)
    (h : ∀ l ∈ ls, ∀ k v, ordataEntry l = some (k, v) → k ≠ key) :
    (ls.foldl ordataLine st).ret.find key = st.ret.find key
    ∧ (st.found_ordata = true → (ls.foldl ordataLine st).found_ordata = true) := by
  induction ls generalizing st with
  | nil => exact ⟨rfl, id⟩
  | cons l ls ih =>
    rw [List.foldl_cons]
    obtain ⟨h1, h2⟩ := ih (ordataLine st l) (fun x hx => h x (List.mem_cons_of_mem _ hx))
    obtain ⟨s1, s2⟩ := ordataLine_spec st l
    constructor
    · rw [h1, s1]
      cases he : ordataEntry l with
      | none => rfl
      | some kv =>
        obtain ⟨k, v⟩ := kv
        simp only [find_assign]
        rw [if_neg (h l (List.mem_cons_self _ _) k v he)]
    · intro hf
      apply h2
      rw [s2, hf]
      rfl

theorem ordata_files_fold (fs : List DirEntry) (st : OrdataState) :
    fs.foldl
        (fun st file =>
          match file.content with
          | none => st
          | some content => parseFile content ordataLine st) st
      = (fs.map fileLines).flatten.foldl ordataLine st := by
  induction fs generalizing st with
  | nil => rfl
  | cons f fs ih =>
    rw [List.foldl_cons, ih, List.map_cons, List.flatten_cons, List.foldl_append]
    congr 1
    unfold fileLines parseFile
    cases f.content <;> rfl

theorem readToken_word (word rest : Str) (c : Char) (hw : word ≠ [])
    (hword : ∀ x ∈ word, isspace x = false) (hc : isspace c = true) :
    readToken (word ++ c :: rest) = some (word, c :: rest) := by
  have hall : ∀ x ∈ word, (fun x => !isspace x) x = true := by
    intro x hx
    simp [hword x hx]
  have h1 := takeWhile_stop (fun x => !isspace x) word c rest hall (by simp [hc])
  have h2 := dropWhile_stop (fun x => !isspace x) word c rest hall (by simp [hc])
  cases word with
  | nil => exact absurd rfl hw
  | cons a as =>
    have ha : isspace a = false := hword a (List.mem_cons_self _ _)
    unfold readToken
    rw [List.cons_append, List.dropWhile_cons, ha]
    simp only [Bool.false_eq_true, if_false]
    rw [← List.cons_append, h1, h2]

theorem readToken_last (word : Str) (c : Char) (hw : word ≠ [])
    (hword : ∀ x ∈ word, isspace x = false) (hc : isspace c = true) :
    readToken (c :: word) = some (word, []) := by
  have hall : word.all (fun x => !isspace x) = true := by
    rw [List.all_eq_true]
    intro x hx
    simp [hword x hx]
  have h1 := takeWhile_all (fun x => !isspace x) word hall
  have h2 : word.dropWhile (fun x => !isspace x) = [] := by
    rw [List.dropWhile_eq_nil_iff]
    intro x hx
    simp [hword x hx]
  cases word with
  | nil => exact absurd rfl hw
  | cons a as =>
    have ha : isspace a = false := hword a (List.mem_cons_self _ _)
    unfold readToken
    rw [List.dropWhile_cons, hc]
    simp only [if_true]
    rw [List.dropWhile_cons, ha]
    simp only [Bool.false_eq_true, if_false]
    rw [h1, h2]

theorem ordataEntry_export (KEY VALUE : Str) (hK1 : '=' ∉ KEY)
    (hK2 : ∀ c ∈ KEY, isspace c = false) (hV : ∀ c ∈ VALUE, isspace c = false) :
    ordataEntry ("export ".toList ++ ORDATA_PREFIX ++ KEY ++ '=' :: VALUE)
      = some (toLower KEY, VALUE) := by
  have hline : "export ".toList ++ ORDATA_PREFIX ++ KEY ++ '=' :: VALUE
      = "export".toList ++ ' ' :: (ORDATA_PREFIX ++ KEY ++ '=' :: VALUE) := by
    simp
  have hvar : ∀ x ∈ ORDATA_PREFIX ++ KEY ++ '=' :: VALUE, isspace x = false := by
    intro x hx
    simp only [List.mem_append, List.mem_cons] at hx
    rcases hx with (hx | hx) | hx | hx
    · revert x
      decide
    · exact hK2 x hx
    · rw [hx]
      rfl
    · exact hV x hx
  have hne : ORDATA_PREFIX ++ KEY ++ '=' :: VALUE ≠ [] := by
    simp [ORDATA_PREFIX]
  have h1 : readToken ("export".toList ++ ' ' :: (ORDATA_PREFIX ++ KEY ++ '=' :: VALUE))
      = some ("export".toList, ' ' :: (ORDATA_PREFIX ++ KEY ++ '=' :: VALUE)) :=
    readToken_word _ _ ' ' (by decide) (by decide) (by decide)
  have h2 := readToken_last (ORDATA_PREFIX ++ KEY ++ '=' :: VALUE) ' ' hne hvar (by decide)
  have h3 : startsWith ORDATA_PREFIX (ORDATA_PREFIX ++ KEY ++ '=' :: VALUE) = true := by
    rw [List.append_assoc]
    simp [startsWith]
  have hall : ∀ c ∈ ORDATA_PREFIX ++ KEY, (fun c : Char => c != '=') c = true := by
    intro c hc
    simp only [bne_iff_ne, ne_eq]
    intro h
    rw [h] at hc
    rcases List.mem_append.mp hc with hc | hc
    · revert hc
      decide
    · exact hK1 hc
  have h4 := takeWhile_stop (fun c : Char => c != '=') (ORDATA_PREFIX ++ KEY) '=' VALUE hall
    (by simp)
  have h5 := dropWhile_stop (fun c : Char => c != '=') (ORDATA_PREFIX ++ KEY) '=' VALUE hall
    (by simp)
  have h6 : ((ORDATA_PREFIX ++ KEY ++ '=' :: VALUE).drop ORDATA_PREFIX.length).take
      ((ORDATA_PREFIX ++ KEY).length - ORDATA_PREFIX.length) = KEY := by
    rw [List.append_assoc, List.drop_left' rfl, List.length_append, Nat.add_sub_cancel_left]
    exact List.take_left' rfl
  rw [hline]
  unfold ordataEntry
  rw [h1]
  simp only [ne_eq, not_true_eq_false, if_false, h2, h3, Bool.not_true, Bool.false_eq_true,
    h4, h5, h6]

theorem ordata_later_lines_key (ls : List Str) (st : OrdataState) (key : Str)
    (h : ∀ l ∈ ls, (ordataEntry l).map Prod.fst ≠ some key) :
    (ls.foldl ordataLine st).ret.find key = st.ret.find key
    ∧ (st.found_ordata = true → (ls.foldl ordataLine st).found_ordata = true) := by
  apply ordata_later_lines
  intro l hl k v he hk
  apply h l hl
  rw [he, hk]
  rfl

/-- C14, as stated, fails: for the line export ORDISSIMO_NAME=My Tablet the mapping
    returned by processOrdata maps name to My, not to the VALUE My Tablet as written. -/
theorem value_cut_at_blank :
    processOrdata blankValueSources = .ok ([("name".toList, "My".toList)], false) := by
  decide

/-- C14 (amended): for every line export ORDISSIMO_<KEY>=<VALUE> of a file of the directory
    source (KEY without '=' or white space, VALUE without white space), the mapping returned
    by processOrdata maps lowercase(KEY) to VALUE exactly as written, unless a later line of
    the file or a line of a later file in sorted order defines the same key. -/
theorem processOrdata_entry (src : Sources) (entries F1 F2 : List DirEntry) (file : DirEntry)
    (content : Str) (L1 L2 : List Str) (KEY VALUE : Str)
    (hdir : src.ordata = some entries)
    (hfiles : sortByName (entries.filter (fun e => !hidden e)) = F1 ++ file :: F2)
    (hcontent : file.content = some content)
    (hlines : getlines content []
      = L1 ++ ("export ".toList ++ ORDATA_PREFIX ++ KEY ++ '=' :: VALUE) :: L2)
    (hK1 : '=' ∉ KEY) (hK2 : ∀ c ∈ KEY, isspace c = false)
    (hV : ∀ c ∈ VALUE, isspace c = false)
    (hlater1 : ∀ l ∈ L2, (ordataEntry l).map Prod.fst ≠ some (toLower KEY))
    (hlater2 : ∀ f ∈ F2, ∀ l ∈ fileLines f,
      (ordataEntry l).map Prod.fst ≠ some (toLower KEY)) :
    ∃ ret invalid, processOrdata src = .ok (ret, invalid)
      ∧ ret.find (toLower KEY) = some VALUE := by
  have hentry := ordataEntry_export KEY VALUE hK1 hK2 hV
  generalize hl : "export ".toList ++ ORDATA_PREFIX ++ KEY ++ '=' :: VALUE = line at hlines hentry
  have hne : line.isEmpty = false := by
    rw [← hl]
    rfl
  have hfl : fileLines file
      = L1.filter (fun line => !line.isEmpty) ++ line :: L2.filter (fun line => !line.isEmpty) := by
    unfold fileLines
    rw [hcontent]
    simp only [hlines, List.filter_append, List.filter_cons, hne, Bool.not_false, if_true]
  have hall : ((F1 ++ file :: F2).map fileLines).flatten
      = ((F1.map fileLines).flatten ++ L1.filter (fun line => !line.isEmpty))
        ++ line :: (L2.filter (fun line => !line.isEmpty) ++ (F2.map fileLines).flatten) := by
    simp [hfl]
  have hrest : ∀ l ∈ L2.filter (fun line => !line.isEmpty) ++ (F2.map fileLines).flatten,
      (ordataEntry l).map Prod.fst ≠ some (toLower KEY) := by
    intro l hl
    rcases List.mem_append.mp hl with hl | hl
    · exact hlater1 l (List.mem_filter.mp hl).1
    · obtain ⟨ls, hls, hl2⟩ := List.mem_flatten.mp hl
      obtain ⟨f, hf, rfl⟩ := List.mem_map.mp hls
      exact hlater2 f hf l hl2
  have hst : (sortByName (entries.filter (fun e => !hidden e))).foldl
      (fun st file =>
        match file.content with
        | none => st
        | some content => parseFile content ordataLine st)
      ({ ret := [], invalid_ordata := false, found_ordata := false } : OrdataState)
      = List.foldl ordataLine
          (ordataLine
            (List.foldl ordataLine
              ({ ret := [], invalid_ordata := false, found_ordata := false } : OrdataState)
              ((F1.map fileLines).flatten ++ L1.filter (fun line => !line.isEmpty)))
            line)
          (L2.filter (fun line => !line.isEmpty) ++ (F2.map fileLines).flatten) := by
    rw [hfiles, ordata_files_fold, hall, List.foldl_append, List.foldl_cons]
  generalize List.foldl ordataLine
    ({ ret := [], invalid_ordata := false, found_ordata := false } : OrdataState)
    ((F1.map fileLines).flatten ++ L1.filter (fun line => !line.isEmpty)) = st0 at hst
  obtain ⟨s1, s2⟩ := ordataLine_spec st0 line
  rw [hentry] at s1 s2
  obtain ⟨r1, r2⟩ := ordata_later_lines_key _ (ordataLine st0 line) (toLower KEY) hrest
  have hfound := r2 (by rw [s2]; simp)
  unfold processOrdata
  rw [hdir]
  dsimp only
  rw [hst, hfound]
  refine ⟨_, _, rfl, ?_⟩
  rw [r1, s1, find_assign, if_pos rfl]

/-- An instance of C14 (amended): the second line of the first file in sorted order defines
    Lang, and no later line defines it again. -/
theorem processOrdata_entry_witness :
    ∃ ret invalid, processOrdata twoFileSources = .ok (ret, invalid)
      ∧ ret.find (toLower "Lang".toList) = some "fr_FR".toList :=
  processOrdata_entry twoFileSources
    [{ name := "20-site".toList, mtime := 10,
       content := some "export ORDISSIMO_MODEL=Phone\n".toList },
     { name := "10-base".toList, mtime := 10,
       content := some "export ORDISSIMO_MODEL=Tablet\nexport ORDISSIMO_Lang=fr_FR\n".toList }]
    []
    [{ name := "20-site".toList, mtime := 10,
       content := some "export ORDISSIMO_MODEL=Phone\n".toList }]
    { name := "10-base".toList, mtime := 10,
      content := some "export ORDISSIMO_MODEL=Tablet\nexport ORDISSIMO_Lang=fr_FR\n".toList }
    "export ORDISSIMO_MODEL=Tablet\nexport ORDISSIMO_Lang=fr_FR\n".toList
    ["export ORDISSIMO_MODEL=Tablet".toList] [] "Lang".toList "fr_FR".toList
    rfl (by decide) rfl (by decide) (by decide) (by decide) (by decide) (by decide) (by decide)

/-! ### The canonical cache key -/

theorem matchTest_shape (p : Pred) (hk : p.key ≠ []) (hh : '-' ∉ p.key) (hv : p.val ≠ [])
    (hn : '\n' ∉ p.val) (hr : '\r' ∉ p.val) :
    matchTest p.text = some (if p.isnot then "isnot".toList else "is".toList, p.key, p.val) := by
  unfold matchTest Pred.text
  cases hp : p.isnot with
  | false =>
    simp only [Bool.false_eq_true, if_false]
    rw [matchTestWith_text _ _ _ hk hh hv hn hr]
  | true =>
    simp only [if_true]
    have h1 : matchTestWith "is".toList ("isnot".toList ++ '-' :: (p.key ++ '-' :: p.val)) = none := by
      simp [matchTestWith, startsWith, List.isPrefixOf]
    rw [h1, matchTestWith_text _ _ _ hk hh hv hn hr]

theorem testLoop_ok (data : Map Str) (a : Bool) (tests : List Str) (fail : Bool)
    (h : ∀ t ∈ tests, matchTest t ≠ none) : ∃ r, testLoop data a tests fail = .ok r := by
  induction tests generalizing fail with
  | nil => exact ⟨_, rfl⟩
  | cons t ts ih =>
    unfold testLoop
    cases hm : matchTest t with
    | none => exact absurd hm (h t (List.mem_cons_self _ _))
    | some m =>
      obtain ⟨cond, key, val⟩ := m
      dsimp only
      cases data.find key with
      | none => exact ⟨_, rfl⟩
      | some v =>
        dsimp only
        split_ifs <;>
          first
          | exact ⟨_, rfl⟩
          | exact ih _ (fun x hx => h x (List.mem_cons_of_mem _ hx))

/-- C16, as stated, fails: the value a, line feed, b is not empty, and the evaluator of
    runTests does not accept the predicate is-dev-a\nb, which parseArgs lets through: the
    regex does not match and the run ends with the fatal error of line 455. -/
theorem line_feed_value_fatal :
    parseArgs ["is-dev-a\nb".toList] [] [] = .ok ([], ["is-dev-a\nb".toList])
    ∧ (Pred.mk false "dev".toList "a\nb".toList).text = "is-dev-a\nb".toList
    ∧ matchTest "is-dev-a\nb".toList = none
    ∧ (runTests demoWorld ["is-dev-a\nb".toList] false false false).code = .error .fatal := by
  decide

/-- C16 (amended): for every polarity, every non-empty key without '-' and every non-empty
    value without line break (\n, \r; it may contain '-'), the evaluator of runTests matches
    the predicate string p-k-v and splits it into polarity p, key k (the text between the
    first and the second '-') and value v (all that follows the second '-'), and the loop
    over that one predicate does not end with a fatal error. -/
theorem evaluator_accepts (p : Pred) (hk : p.key ≠ []) (hh : '-' ∉ p.key) (hv : p.val ≠ [])
    (hn : '\n' ∉ p.val) (hr : '\r' ∉ p.val) :
    matchTest p.text = some (if p.isnot then "isnot".toList else "is".toList, p.key, p.val)
    ∧ ∀ (data : Map Str) (_and fail : Bool), ∃ r, testLoop data _and [p.text] fail = .ok r := by
  have h := matchTest_shape p hk hh hv hn hr
  refine ⟨h, fun data a fail => testLoop_ok data a [p.text] fail ?_⟩
  intro t ht
  rw [List.mem_singleton.mp ht, h]
  simp

/-- An instance of C16 (amended): the value of isnot-os_id-debian-12 holds a hyphen. -/
theorem evaluator_accepts_witness :
    matchTest "isnot-os_id-debian-12".toList
      = some ("isnot".toList, "os_id".toList, "debian-12".toList) :=
  (evaluator_accepts (Pred.mk true "os_id".toList "debian-12".toList)
    (by decide) (by decide) (by decide) (by decide) (by decide)).1

theorem mem_assign {V : Type} (m : Map V) (k : Str) (v : V) (e : Str × V)
    (h : e ∈ m.assign k v) : e = (k, v) ∨ e ∈ m := by
  induction m with
  | nil =>
    simp only [Map.assign, List.mem_singleton] at h
    exact Or.inl h
  | cons x xs ih =>
    obtain ⟨k1, v1⟩ := x
    unfold Map.assign at h
    split at h
    · rcases List.mem_cons.mp h with h | h
      · exact Or.inl h
      · exact Or.inr (List.mem_cons_of_mem _ h)
    · split at h
      · rcases List.mem_cons.mp h with h | h
        · exact Or.inl h
        · exact Or.inr h
      · rcases List.mem_cons.mp h with h | h
        · exact Or.inr (h ▸ List.mem_cons_self _ _)
        · rcases ih h with h | h
          · exact Or.inl h
          · exact Or.inr (List.mem_cons_of_mem _ h)

theorem find_mem {V : Type} (m : Map V) (k : Str) (v : V) (h : m.find k = some v) :
    (k, v) ∈ m := by
  induction m with
  | nil => simp [Map.find] at h
  | cons x xs ih =>
    obtain ⟨k1, v1⟩ := x
    unfold Map.find at h
    split at h
    · next hk =>
      simp only [Option.some.injEq] at h
      rw [← hk, ← h]
      exact List.mem_cons_self _ _
    · exact List.mem_cons_of_mem _ (ih h)

theorem evaluate_range (w : World) (m : Map Int) (key : Str) (tests : List Str) (a q : Bool)
    (hm : codesOk m) :
    (∀ c, (evaluate w m key tests a q).code = .ok c → c = 0 ∨ c = 2 ∨ c = 3)
    ∧ ((evaluate w m key tests a q).world.cache = w.cache
      ∨ ∃ m1, (evaluate w m key tests a q).world.cache = some (w.now, cacheText m1)
          ∧ codesOk m1) := by
  unfold evaluate
  cases getAllData w.src with
  | error e => exact ⟨by simp, Or.inl rfl⟩
  | ok data =>
    dsimp only
    cases testLoop data a tests true with
    | error e => exact ⟨by simp, Or.inl rfl⟩
    | ok r =>
      cases r with
      | notFound => exact ⟨by simp [EXIT_NOTFOUND], Or.inl rfl⟩
      | done fail =>
        have hcode : ∀ c : Int, (c = 0 ∨ c = 3) → codesOk (m.assign key c) := by
          intro c hc e he
          rcases mem_assign m key c e he with h | h
          · rw [h]
            exact hc
          · exact hm e h
        cases hw : w.writable <;> cases fail
        · exact ⟨by simp [EXIT_SUCCESS, EXIT_FAIL],
            Or.inl (by simp [EXIT_SUCCESS, EXIT_FAIL, writeCache, hw])⟩
        · exact ⟨by simp [EXIT_SUCCESS, EXIT_FAIL],
            Or.inl (by simp [EXIT_SUCCESS, EXIT_FAIL, writeCache, hw])⟩
        · exact ⟨by simp [EXIT_SUCCESS, EXIT_FAIL],
            Or.inr ⟨m.assign key 0, by simp [EXIT_SUCCESS, EXIT_FAIL, writeCache, hw],
              hcode 0 (Or.inl rfl)⟩⟩
        · exact ⟨by simp [EXIT_SUCCESS, EXIT_FAIL],
            Or.inr ⟨m.assign key 3, by simp [EXIT_SUCCESS, EXIT_FAIL, writeCache, hw],
              hcode 3 (Or.inr rfl)⟩⟩

theorem evaluate_returns (w : World) (m : Map Int) (key : Str) (tests : List Str) (a q : Bool)
    (data : Map Str) (hdata : getAllData w.src = .ok data)
    (hwf : ∀ t ∈ tests, matchTest t ≠ none) :
    ∃ c, (evaluate w m key tests a q).code = .ok c := by
  obtain ⟨r, hr⟩ := testLoop_ok data a tests true hwf
  rw [evaluate_code]
  unfold evalDirect
  rw [hdata]
  dsimp only
  rw [hr]
  cases r with
  | notFound => exact ⟨_, rfl⟩
  | done fail => exact ⟨_, rfl⟩

/-- C17: when the map read from the cache file before a query holds only the values 0 and 3,
    a value runTests returns is 0, 2 or 3; the cache file afterwards is the one from before,
    is removed, or is the text written for a map that holds only the values 0 and 3; and
    runTests does return a value when the attribute table can be built and the evaluator's
    regex matches every predicate of the query. -/
theorem codes_in_range (w : World) (tests : List Str) (_and _or quiet : Bool)
    (hcache : ∀ mtime content, w.cache = some (mtime, content) →
      ∃ m, readCache content = .ok m ∧ codesOk m) :
    (∀ c, (runTests w tests _and _or quiet).code = .ok c → c = 0 ∨ c = 2 ∨ c = 3)
    ∧ ((runTests w tests _and _or quiet).world.cache = w.cache
      ∨ (runTests w tests _and _or quiet).world.cache = none
      ∨ ∃ m1, (runTests w tests _and _or quiet).world.cache = some (w.now, cacheText m1)
          ∧ codesOk m1)
    ∧ (∀ data, getAllData w.src = .ok data → (∀ t ∈ tests, matchTest t ≠ none) →
        ∃ c, (runTests w tests _and _or quiet).code = .ok c) := by
  have hnil : codesOk [] := by
    intro e he
    simp at he
  unfold runTests
  cases hc : w.cache with
  | none =>
    dsimp only
    obtain ⟨h1, h2⟩ := evaluate_range w [] (cachedKey tests _and _or) tests _and quiet hnil
    refine ⟨h1, ?_, fun data hd hwf => evaluate_returns w _ _ tests _and quiet data hd hwf⟩
    rcases h2 with h2 | h2
    · exact Or.inr (Or.inl (h2.trans hc))
    · exact Or.inr (Or.inr h2)
  | some c =>
    obtain ⟨mtime, content⟩ := c
    dsimp only
    by_cases hst : mtime < getMaxMtime w.src
    · simp only [hst, if_true]
      obtain ⟨h1, h2⟩ := evaluate_range { w with cache := none } []
        (cachedKey tests _and _or) tests _and quiet hnil
      refine ⟨h1, ?_, fun data hd hwf =>
        evaluate_returns { w with cache := none } _ _ tests _and quiet data hd hwf⟩
      rcases h2 with h2 | h2
      · exact Or.inr (Or.inl h2)
      · exact Or.inr (Or.inr h2)
    · simp only [hst, if_false]
      obtain ⟨m, hm, hok⟩ := hcache mtime content hc
      rw [hm]
      dsimp only
      cases hf : m.find (cachedKey tests _and _or) with
      | some v =>
        dsimp only
        refine ⟨?_, Or.inl hc, fun _ _ _ => ⟨v, rfl⟩⟩
        intro c hcv
        simp only [Except.ok.injEq] at hcv
        rcases hok _ (find_mem m _ v hf) with h | h
        · exact Or.inl (hcv ▸ h)
        · exact Or.inr (Or.inr (hcv ▸ h))
      | none =>
        dsimp only
        obtain ⟨h1, h2⟩ := evaluate_range w m (cachedKey tests _and _or) tests _and quiet hok
        refine ⟨h1, ?_, fun data hd hwf => evaluate_returns w _ _ tests _and quiet data hd hwf⟩
        rcases h2 with h2 | h2
        · exact Or.inl (h2.trans hc)
        · exact Or.inr (Or.inr h2)

/-- An instance of C17: the cache file records PASS for another query; the query
    is-model-tablet is evaluated and returns a code of the range. -/
theorem codes_in_range_witness :
    ∃ c, (runTests freshWorld ["is-model-tablet".toList] false false false).code = .ok c
      ∧ (c = 0 ∨ c = 2 ∨ c = 3) := by
  have h := codes_in_range freshWorld ["is-model-tablet".toList] false false false
    (fun mtime content hc => by
      cases hc
      exact ⟨[("00is-dev-false".toList, 0)], by decide, by decide⟩)
  obtain ⟨c, hc⟩ := h.2.2 demoTable (by decide) (by decide)
  exact ⟨c, hc, h.1 c hc⟩

/-- C18: two different queries get the same cache key.  The list of the two predicates
    is-dev-false and is-custom-x and the list of the one predicate "is-dev-false is-custom-x"
    are both accepted by parseArgs and free of duplicates, and cachedKey is the same text
    for both. -/
theorem cachedKey_collision :
    parseArgs ["is-dev-false".toList, "is-custom-x".toList] [] []
      = .ok ([], ["is-dev-false".toList, "is-custom-x".toList])
    ∧ parseArgs ["is-dev-false is-custom-x".toList] [] []
      = .ok ([], ["is-dev-false is-custom-x".toList])
    ∧ ["is-dev-false".toList, "is-custom-x".toList].Nodup
    ∧ ["is-dev-false is-custom-x".toList].Nodup
    ∧ ["is-dev-false".toList, "is-custom-x".toList] ≠ ["is-dev-false is-custom-x".toList]
    ∧ cachedKey ["is-dev-false".toList, "is-custom-x".toList] false false
      = cachedKey ["is-dev-false is-custom-x".toList] false false := by
  decide

/-- C19: lines without the shape export ORDISSIMO_KEY=VALUE go unmarked.  The file holds
    export ORDISSIMO_FOO (no '='), a line with only export, and a well-formed line: the
    well-formed line is parsed, and processOrdata returns with invalid_ordata false.  A line
    that does not start with export is marked. -/
theorem shapeless_lines_unmarked :
    processOrdata shapelessSources = .ok ([("model".toList, "Tablet".toList)], false)
    ∧ (ordataLine { ret := [], invalid_ordata := false, found_ordata := false }
        "export ORDISSIMO_FOO".toList).invalid_ordata = false
    ∧ (ordataLine { ret := [], invalid_ordata := false, found_ordata := false }
        "export".toList).invalid_ordata = false
    ∧ (ordataLine { ret := [], invalid_ordata := false, found_ordata := false }
        "set ORDISSIMO_FOO=1".toList).invalid_ordata = true := by
  decide

/-! ### The keys of the attribute table -/

end SystemInfo
